import Mathlib

/-!
Huffman coder (`huffman.go`): embedding and verified properties.

The Go package keeps a forest of `*node` values (`nodelist`), rebuilds the code
tree on every `Append`, and derives a `rune → code` map for `Encode`; `Decode`
walks the tree.

Modelling choices.

* A value of Go type `*node` is a value of the inductive type `node`: either
  `node.nil` or `node.mk` with the struct fields.  The `parent` field is a back
  reference to the struct that holds the node as `left` or `right`; it is set only
  in `nextStep`, on the two nodes that become the children of the fresh node, so it
  is always the structural parent and is not stored; `node.tree`, which follows the
  `parent` pointers, is given the chain of parents as an argument.
* Go strings are given by the sequence of code points that `range` yields, a
  `List Char`.  A rune is an `Int`; `string(r)` is `runeString`.
* Go `int` is 64 bit; `a.weight + b.weight` wraps (`wrapInt`).
* `sort.Sort` is library code.  It is taken by its contract, `SortImpl`: the result
  is a rearrangement of the argument in which no later element is `Less` than an
  earlier one; nothing is assumed about elements of equal weight.  `insertionSort`
  is the procedure the library runs on short slices and gives the concrete
  implementation `goSort`.  General statements hold for every `SortImpl`.
* The loop `for list.nextStep() {}` is run with fuel equal to the length of the
  list; `nodelist.mergeLoop_exits` shows that this fuel always reaches the exit.
* The errors made with `fmt.Errorf` are told apart by kind (`Err`).

Contents: the embedding; the notions used in the statements (`node.leaves`,
`node.codes`, `node.paths`, `node.Proper`, `node.cost`, ...); the state after `Append`
(`build_spec`); the code map; the decoding walk; round trip (C1, C2); codes and leaves
(C3, C4); errors (C7 to C10); independence of the sort when no weights tie and the
textbook example (C6); optimality of the merge (C5); trailing bits and the
decode-failed branch (C11, C12); rebuild, `Clear` and symbols that are not positive
(C16, C19, C20); the sum invariant and the merge step (C13, C14); order of elements of
equal weight (C15); rendering, read-only calls and layout (C17, C18).
-/

namespace Huffman

/-! ## Data model -/

/-- The errors built with `fmt.Errorf` in `Encode` and `Decode`, by kind. -/
inductive Err where
  /-- `不可识别的字符: %c` (`Encode`) -/
  | unrecognized (char : Char)
  /-- `空编码树` (`Decode`) -/
  | emptyTree
  /-- `空输入` (`Decode`) -/
  | emptyInput
  /-- `非法字符: %c` (`Decode`) -/
  | illegalChar (char : Char)
  /-- `错误的输入，解码失败` (`Decode`) -/
  | decodeFailed
  deriving DecidableEq, Repr

/-- A value of type `*node`: `nil`, or a pointer to a struct with the fields
`char`, `weight`, `left`, `right`, `visited`, `huffman`. -/
inductive node where
  | nil : node
  | mk (char : Int) (weight : Int) (left right : node) (visited : Bool)
      (huffman : List Char) : node
  deriving DecidableEq, Repr

namespace node

/-- Field `char` (a nil pointer is never dereferenced by the program). -/
def char : node → Int
  | nil => 0
  | mk c _ _ _ _ _ => c

/-- Field `weight`. -/
def weight : node → Int
  | nil => 0
  | mk _ w _ _ _ _ => w

/-- Field `left`. -/
def left : node → node
  | nil => nil
  | mk _ _ l _ _ _ => l

/-- Field `right`. -/
def right : node → node
  | nil => nil
  | mk _ _ _ r _ _ => r

/-- Field `huffman`. -/
def huffman : node → List Char
  | nil => []
  | mk _ _ _ _ _ h => h

end node

/-- The Go type `nodelist`, a slice of `*node`. -/
abbrev nodelist := List node

/-- The Go type `HuffmanCoder`: the embedded `nodelist` and the map `coder`. -/
structure HuffmanCoder where
  nodelist : nodelist
  coder : Int → Option (List Char)

/-- Go `int` addition on a 64 bit platform: the sum wraps into `[-2^63, 2^63)`. -/
def wrapInt (x : Int) : Int := (x + 2 ^ 63) % 2 ^ 64 - 2 ^ 63

/-- The conversion `string(r)` of a rune: the code point itself, or `U+FFFD` when `r`
is not a Unicode scalar value. -/
def runeString (r : Int) : Char :=
  if 0 ≤ r ∧ r.toNat.isValidChar then Char.ofNat r.toNat else Char.ofNat 65533

/-- The rune that `range` yields for a code point of the input. -/
def runeOf (c : Char) : Int := (c.toNat : Int)

/-- `make(map[rune]string)`. -/
def emptyCoder : Int → Option (List Char) := fun _ => none

/-- The assignment `m[k] = v`. -/
def setCode (m : Int → Option (List Char)) (k : Int) (v : List Char) :
    Int → Option (List Char) :=
  fun x => if x = k then some v else m x

/-- The read `m[k]`: the zero value `""` for a missing key. -/
def getCode (m : Int → Option (List Char)) (k : Int) : List Char := (m k).getD []

/-! ## Sorting -/

/-- `nodelist.Less` on the two elements compared. -/
def nodelist.Less (x y : node) : Prop := x.weight < y.weight

instance (x y : node) : Decidable (nodelist.Less x y) := by
  unfold nodelist.Less; infer_instance

/-- The contract of `sort.Sort` for a `nodelist`: it rearranges the list so that no
element is `Less` than one before it.  Stability is not part of the contract. -/
structure SortImpl where
  sort : nodelist → nodelist
  perm : ∀ l, (sort l).Perm l
  sorted : ∀ l, (sort l).Pairwise (fun a b => ¬ nodelist.Less b a)

/-- The inner loop of the library's `insertionSort`: the new element moves left while
it is `Less` than its left neighbour; on a sorted list that places it before the first
element it is `Less` than. -/
def insertNode (x : node) : nodelist → nodelist
  | [] => [x]
  | y :: ys => if nodelist.Less x y then x :: y :: ys else y :: insertNode x ys

/-- The library's `insertionSort`, which `sort.Sort` runs on a slice of at most 12
elements: the elements are inserted from left to right. -/
def insertionSort (l : nodelist) : nodelist := l.foldl (fun acc x => insertNode x acc) []

/-! ## The insertion sort meets the contract of `sort.Sort` -/

theorem insertNode_perm (x : node) (l : nodelist) : (insertNode x l).Perm (x :: l) := by
  induction l with
  | nil => simp [insertNode]
  | cons y ys ih =>
    unfold insertNode
    split
    · exact List.Perm.refl _
    · exact (List.Perm.cons y ih).trans (List.Perm.swap x y ys)

theorem insertNode_sorted (x : node) (l : nodelist)
    (h : l.Pairwise (fun a b => ¬ nodelist.Less b a)) :
    (insertNode x l).Pairwise (fun a b => ¬ nodelist.Less b a) := by
  induction l with
  | nil => simp [insertNode]
  | cons y ys ih =>
    rw [List.pairwise_cons] at h
    unfold insertNode
    split
    · rename_i hxy
      refine List.pairwise_cons.2 ⟨?_, List.pairwise_cons.2 h⟩
      intro b hb
      unfold nodelist.Less at *
      rcases List.mem_cons.1 hb with rfl | hb
      · omega
      · have := h.1 b hb
        omega
    · rename_i hxy
      refine List.pairwise_cons.2 ⟨?_, ih h.2⟩
      intro b hb
      rcases List.mem_cons.1 ((insertNode_perm x ys).subset hb) with rfl | hb
      · exact hxy
      · exact h.1 b hb

theorem foldl_insertNode_perm (l acc : nodelist) :
    (l.foldl (fun acc x => insertNode x acc) acc).Perm (acc ++ l) := by
  induction l generalizing acc with
  | nil => simp
  | cons x xs ih =>
    simp only [List.foldl_cons]
    refine (ih _).trans ?_
    refine ((insertNode_perm x acc).append_right xs).trans ?_
    exact List.perm_middle.symm

theorem foldl_insertNode_sorted (l acc : nodelist)
    (h : acc.Pairwise (fun a b => ¬ nodelist.Less b a)) :
    (l.foldl (fun acc x => insertNode x acc) acc).Pairwise
      (fun a b => ¬ nodelist.Less b a) := by
  induction l generalizing acc with
  | nil => simpa
  | cons x xs ih =>
    simp only [List.foldl_cons]
    exact ih _ (insertNode_sorted x acc h)

/-- The insertion sort as an implementation of `sort.Sort`. -/
def goSort : SortImpl where
  sort := insertionSort
  perm := fun l => by simpa [insertionSort] using foldl_insertNode_perm l []
  sorted := fun l => foldl_insertNode_sorted l [] List.Pairwise.nil

/-! ## `node` methods -/

/-- `node.reset`: appends a fresh leaf for the node when `char > 0`, then visits the
children. -/
def node.reset : node → nodelist → nodelist
  | .nil, list => list
  | .mk c w l r _ _, list =>
    r.reset (l.reset (if c > 0 then list ++ [.mk c w .nil .nil false []] else list))

/-- `node.huffmanCode`: stores `path` in the node when `char > 0`, then codes the
children with `path + "0"` and `path + "1"`. -/
def node.huffmanCode : node → List Char → node
  | .nil, _ => .nil
  | .mk c w l r v h, path =>
    .mk c w (l.huffmanCode (path ++ ['0'])) (r.huffmanCode (path ++ ['1'])) v
      (if c > 0 then path else h)

/-! ## `nodelist` methods -/

/-- `nodelist.reset`: the fresh leaves of all the trees of the forest. -/
def nodelist.reset (list : nodelist) : nodelist :=
  list.foldl (fun newlist item => item.reset newlist) []

/-- `nodelist.nextStep`: the new list and the returned flag. -/
def nodelist.nextStep (S : SortImpl) : nodelist → nodelist × Bool
  | a :: b :: rest =>
    (S.sort (rest ++ [.mk 0 (wrapInt (a.weight + b.weight)) a b false []]), true)
  | list => (list, false)

/-- The loop `for list.nextStep() {}` with a bound on the number of iterations. -/
def nodelist.mergeLoop (S : SortImpl) : Nat → nodelist → nodelist
  | 0, list => list
  | fuel + 1, list =>
    match nodelist.nextStep S list with
    | (list1, true) => nodelist.mergeLoop S fuel list1
    | (list1, false) => list1

/-- `nodelist.huffmanCode`: merge until `nextStep` returns false, then code the tree
under the first element. -/
def nodelist.huffmanCode (S : SortImpl) (list : nodelist) : nodelist :=
  match nodelist.mergeLoop S list.length list with
  | [] => []
  | root :: rest => root.huffmanCode [] :: rest

/-- `nodelist.Append`. -/
def nodelist.Append (S : SortImpl) (list : nodelist) (char : Int) (weight : Int) : nodelist :=
  nodelist.huffmanCode S (S.sort (nodelist.reset list ++ [.mk char weight .nil .nil false []]))

/-- `nodelist.Clear`. -/
def nodelist.Clear (_list : nodelist) : nodelist := []

/-- The loop of `nodelist.Decode`: `cur` is the cursor, `output` the text so far. -/
def decodeLoop (root : node) : node → List Char → List Char → List Char × Option Err
  | _, [], output => (output, none)
  | cur, char :: rest, output =>
    if char = '0' ∨ char = '1' then
      match (if char = '0' then cur.left else cur.right) with
      | .nil => (output, some .decodeFailed)
      | .mk c w l r v h =>
        if c > 0 then decodeLoop root root rest (output ++ [runeString c])
        else decodeLoop root (.mk c w l r v h) rest output
    else (output, some (.illegalChar char))

/-- `nodelist.Decode`. -/
def nodelist.Decode (list : nodelist) (input : List Char) : List Char × Option Err :=
  match list with
  | [] => ([], some .emptyTree)
  | root :: _ =>
    if input.length = 0 then ([], some .emptyInput) else decodeLoop root root input []

/-! ## `HuffmanCoder` methods -/

/-- `NewHuffmanCoder`. -/
def NewHuffmanCoder : HuffmanCoder := ⟨[], emptyCoder⟩

/-- `HuffmanCoder.getCoder`, on the map. -/
def getCoder : (Int → Option (List Char)) → node → (Int → Option (List Char))
  | m, .nil => m
  | m, .mk c _ l r _ h => getCoder (getCoder (if c > 0 then setCode m c h else m) l) r

/-- `HuffmanCoder.Append`. -/
def HuffmanCoder.Append (S : SortImpl) (coder : HuffmanCoder) (char : Int) (weight : Int) :
    HuffmanCoder :=
  let list := nodelist.Append S coder.nodelist char weight
  ⟨list, getCoder emptyCoder (list.headD .nil)⟩

/-- The loop of `HuffmanCoder.Encode`. -/
def encodeLoop (m : Int → Option (List Char)) : List Char → List Char → List Char × Option Err
  | [], output => (output, none)
  | char :: rest, output =>
    if (getCode m (runeOf char)).length > 0 then
      encodeLoop m rest (output ++ getCode m (runeOf char))
    else (output, some (.unrecognized char))

/-- `HuffmanCoder.Encode`. -/
def HuffmanCoder.Encode (coder : HuffmanCoder) (input : List Char) : List Char × Option Err :=
  encodeLoop coder.coder input []

/-- `Decode`, promoted from the embedded `nodelist`. -/
def HuffmanCoder.Decode (coder : HuffmanCoder) (input : List Char) : List Char × Option Err :=
  nodelist.Decode coder.nodelist input

/-- `Clear`, promoted from the embedded `nodelist`: only the forest is replaced. -/
def HuffmanCoder.Clear (coder : HuffmanCoder) : HuffmanCoder :=
  ⟨nodelist.Clear coder.nodelist, coder.coder⟩

/-- The coder after the calls `Append(c, w)` for the pairs of `apps`, in order, on a
fresh coder. -/
def build (S : SortImpl) (apps : List (Int × Int)) : HuffmanCoder :=
  apps.foldl (fun coder p => coder.Append S p.1 p.2) NewHuffmanCoder

/-! ## Notions used to state the properties -/

/-- The `(char, weight)` pairs of the nodes that carry a symbol (`char > 0`), in the
order in which `node.reset` visits them. -/
def node.leaves : node → List (Int × Int)
  | .nil => []
  | .mk c w l r _ _ => (if c > 0 then [(c, w)] else []) ++ l.leaves ++ r.leaves

/-- The `(char, huffman)` pairs of the nodes that carry a symbol, in the order in which
`getCoder` visits them. -/
def node.codes : node → List (Int × List Char)
  | .nil => []
  | .mk c _ l r _ h => (if c > 0 then [(c, h)] else []) ++ l.codes ++ r.codes

/-- The `(char, path)` pairs of the nodes that carry a symbol: the path from the node
given to the symbol node, `'0'` for a step to `left` and `'1'` for a step to `right`. -/
def node.paths : node → List (Int × List Char)
  | .nil => []
  | .mk c _ l r _ _ =>
    (if c > 0 then [(c, [])] else []) ++ l.paths.map (fun p => (p.1, '0' :: p.2))
      ++ r.paths.map (fun p => (p.1, '1' :: p.2))

/-- A code tree: every node either carries a symbol and has no child, or carries no
symbol (`char = 0`) and has two children that are code trees. -/
def node.Proper : node → Prop
  | .nil => False
  | .mk c _ l r _ _ => (0 < c ∧ l = .nil ∧ r = .nil) ∨ (c = 0 ∧ l.Proper ∧ r.Proper)

/-- The weighted path length below depth `d`: the sum over the symbol nodes of
`weight * depth`. -/
def node.cost : Nat → node → Int
  | _, .nil => 0
  | d, .mk c w l r _ _ => (if c > 0 then w * d else 0) + l.cost (d + 1) + r.cost (d + 1)

/-- The sum over the symbol nodes of `weight * len(huffman)`. -/
def node.codeCost : node → Int
  | .nil => 0
  | .mk c w l r _ h => (if c > 0 then w * h.length else 0) + l.codeCost + r.codeCost

/-- The fresh leaf that `node.reset` and `nodelist.Append` create for a pair. -/
def freshLeaf (p : Int × Int) : node := .mk p.1 p.2 .nil .nil false []

/-- A forest of code trees. -/
def Forest (F : nodelist) : Prop := ∀ t ∈ F, t.Proper

/-- The concatenation, in order, of the codes that the map holds for the symbols of a
text. -/
def codesOf (m : Int → Option (List Char)) (s : List Char) : List Char :=
  s.flatMap (fun ch => getCode m (runeOf ch))

/-- Neither of the two codes is an initial segment of the other. -/
def Unrelated (a b : Int × List Char) : Prop := ¬ a.2 <+: b.2 ∧ ¬ b.2 <+: a.2

/-- The weights of the list increase strictly: no two elements tie. -/
def strictList (l : nodelist) : Bool :=
  decide (l.Pairwise (fun a b => a.weight < b.weight))

/-- No sort of the merge loop, run with the insertion sort, meets a tie. -/
def mergeTieFree : Nat → nodelist → Bool
  | 0, _ => true
  | fuel + 1, a :: b :: rest =>
    strictList (insertionSort (rest ++ [.mk 0 (wrapInt (a.weight + b.weight)) a b false []]))
      && mergeTieFree fuel
        (insertionSort (rest ++ [.mk 0 (wrapInt (a.weight + b.weight)) a b false []]))
  | _ + 1, _ => true

/-- No sort of `nodelist.Append`, run with the insertion sort, meets a tie. -/
def appendTieFree (list : nodelist) (char weight : Int) : Bool :=
  strictList (insertionSort (nodelist.reset list ++ [.mk char weight .nil .nil false []]))
    && mergeTieFree (nodelist.reset list ++ [node.mk char weight .nil .nil false []]).length
      (insertionSort (nodelist.reset list ++ [.mk char weight .nil .nil false []]))

/-- No sort of the calls `Append(c, w)` for the pairs of `apps`, made on `coder` and run
with the insertion sort, meets a tie. -/
def buildTieFree : HuffmanCoder → List (Int × Int) → Bool
  | _, [] => true
  | coder, p :: ps =>
    appendTieFree coder.nodelist p.1 p.2 && buildTieFree (coder.Append goSort p.1 p.2) ps

/-- `Shape d D`: `D` lists the depths of the symbol nodes of some code tree whose root
is at depth `d`. -/
inductive Shape : Nat → List Nat → Prop
  | leaf (d : Nat) : Shape d [d]
  | inner (d : Nat) (D1 D2 : List Nat) : Shape (d + 1) D1 → Shape (d + 1) D2 →
      Shape d (D1 ++ D2)

/-- The weighted length of a list of `(weight, depth)` pairs. -/
def pcost (ps : List (Int × Nat)) : Int := (ps.map (fun p => p.1 * (p.2 : Int))).sum

/-- The sum of the weights of the symbol nodes of a tree. -/
def node.total (t : node) : Int := (t.leaves.map Prod.snd).sum

/-- The `(weight, depth)` pairs of the symbol nodes of a tree whose root is at depth
`d`. -/
def node.depths : Nat → node → List (Int × Nat)
  | _, .nil => []
  | d, .mk c w l r _ _ =>
    (if c > 0 then [(w, d)] else []) ++ l.depths (d + 1) ++ r.depths (d + 1)

/-- A forest of code trees in which every root weight is the sum of the weights of the
symbol nodes below it, the weights of the symbol nodes are not negative, and the sum of
all of them is below `2^63`, so that no sum formed by `nextStep` wraps. -/
def Ready (F : nodelist) : Prop :=
  Forest F ∧ (∀ t ∈ F, t.weight = t.total) ∧ (∀ t ∈ F, ∀ p ∈ t.leaves, 0 ≤ p.2) ∧
    (F.map node.total).sum < 2 ^ 63

/-- A binary tree that carries a code in which no word is an initial segment of
another: every symbol node is childless.  Nodes with one child and childless nodes
without a symbol are allowed. -/
def node.CodeTree : node → Prop
  | .nil => True
  | .mk c _ l r _ _ => (0 < c → l = .nil ∧ r = .nil) ∧ l.CodeTree ∧ r.CodeTree

/-- Four symbols of weight `2^62` each: every weight is a Go `int`, their sums are
not. -/
def overflowApps : List (Int × Int) :=
  [(97, 2 ^ 62), (98, 2 ^ 62), (99, 2 ^ 62), (100, 2 ^ 62)]

/-- The balanced tree over the symbols of `overflowApps`. -/
def balancedTree : node :=
  .mk 0 0
    (.mk 0 0 (.mk 97 (2 ^ 62) .nil .nil false []) (.mk 98 (2 ^ 62) .nil .nil false []) false [])
    (.mk 0 0 (.mk 99 (2 ^ 62) .nil .nil false []) (.mk 100 (2 ^ 62) .nil .nil false []) false [])
    false []

/-- `node.Proper` can be checked by evaluation. -/
def node.decProper : (t : node) → Decidable t.Proper
  | .nil => isFalse (fun h => h)
  | .mk c _ l r _ _ =>
    match node.decProper l, node.decProper r with
    | isTrue hl, isTrue hr =>
      if hc : c = 0 then isTrue (Or.inr ⟨hc, hl, hr⟩)
      else isFalse (fun h => by
        rcases h with ⟨_, e, _⟩ | ⟨e, _, _⟩
        · subst e; exact hl
        · exact hc e)
    | isFalse hl, _ =>
      if h1 : 0 < c ∧ l = .nil ∧ r = .nil then isTrue (Or.inl h1)
      else isFalse (fun h => by
        rcases h with e | ⟨_, e, _⟩
        · exact h1 e
        · exact hl e)
    | _, isFalse hr =>
      if h1 : 0 < c ∧ l = .nil ∧ r = .nil then isTrue (Or.inl h1)
      else isFalse (fun h => by
        rcases h with e | ⟨_, _, e⟩
        · exact h1 e
        · exact hr e)

instance (t : node) : Decidable t.Proper := node.decProper t

/-- `node.CodeTree` can be checked by evaluation. -/
def node.decCodeTree : (t : node) → Decidable t.CodeTree
  | .nil => isTrue trivial
  | .mk c _ l r _ _ =>
    match node.decCodeTree l, node.decCodeTree r with
    | isTrue hl, isTrue hr =>
      if h1 : 0 < c → l = .nil ∧ r = .nil then isTrue ⟨h1, hl, hr⟩
      else isFalse (fun h => h1 h.1)
    | isFalse hl, _ => isFalse (fun h => hl h.2.1)
    | _, isFalse hr => isFalse (fun h => hr h.2.2)

instance (t : node) : Decidable t.CodeTree := node.decCodeTree t

/-- The nodes of a tree, root first, then those of the left and of the right subtree. -/
def node.nodes : node → List node
  | .nil => []
  | .mk c w l r v h => .mk c w l r v h :: (l.nodes ++ r.nodes)

/-- Go `int` addition: the sum, wrapped to 64 bits. -/
def goAdd (a b : Int) : Int := wrapInt (a + b)

/-- `t.Sums add`: every node of `t` that has a child has two children, and its weight
is `add` of the weights of the two. -/
def node.Sums (add : Int → Int → Int) : node → Prop
  | .nil => True
  | .mk _ w l r _ _ =>
    (l = .nil ∧ r = .nil) ∨
      (l ≠ .nil ∧ r ≠ .nil ∧ w = add l.weight r.weight ∧ l.Sums add ∧ r.Sums add)

/-- `node.Sums` can be checked by evaluation. -/
def node.decSums (add : Int → Int → Int) : (t : node) → Decidable (t.Sums add)
  | .nil => isTrue trivial
  | .mk _ w l r _ _ =>
    match node.decSums add l, node.decSums add r with
    | isTrue hl, isTrue hr =>
      if h1 : l = .nil ∧ r = .nil then isTrue (Or.inl h1)
      else if h2 : l ≠ .nil ∧ r ≠ .nil ∧ w = add l.weight r.weight then
        isTrue (Or.inr ⟨h2.1, h2.2.1, h2.2.2, hl, hr⟩)
      else isFalse (fun h => by
        rcases h with e | ⟨e1, e2, e3, _, _⟩
        · exact h1 e
        · exact h2 ⟨e1, e2, e3⟩)
    | isFalse hl, _ =>
      if h1 : l = .nil ∧ r = .nil then isTrue (Or.inl h1)
      else isFalse (fun h => by
        rcases h with e | ⟨_, _, _, e, _⟩
        · exact h1 e
        · exact hl e)
    | _, isFalse hr =>
      if h1 : l = .nil ∧ r = .nil then isTrue (Or.inl h1)
      else isFalse (fun h => by
        rcases h with e | ⟨_, _, _, _, e⟩
        · exact h1 e
        · exact hr e)

instance (add : Int → Int → Int) (t : node) : Decidable (t.Sums add) := node.decSums add t

/-- The forest after `k` calls of `nextStep`. -/
def nodelist.steps (S : SortImpl) : Nat → nodelist → nodelist
  | 0, l => l
  | k + 1, l => nodelist.steps S k (nodelist.nextStep S l).1

/-- Ascending by weight: no element is `Less` than one before it. -/
def Ascending (l : nodelist) : Prop := l.Pairwise (fun a b => ¬ nodelist.Less b a)

instance (l : nodelist) : Decidable (Ascending l) := by
  unfold Ascending; infer_instance

/-- The elements of weight `w`, in their order in the list. -/
def ofWeight (w : Int) (l : nodelist) : nodelist := l.filter (fun t => decide (t.weight = w))

/-- The constant `vert_line`. -/
def vert_line : List Char := ['┃']

/-- The constant `start_left_child`. -/
def start_left_child : List Char := ['┣', '━', '━']

/-- The constant `start_right_child`. -/
def start_right_child : List Char := ['┗', '━', '━']

/-- The verb `%-8s` or `%-4d` of `fmt.Sprintf`: the text, then blanks up to the width,
counted in code points. -/
def padRight (n : Nat) (s : List Char) : List Char := s ++ List.replicate (n - s.length) ' '

/-- The verb `%d` of `fmt.Sprintf`. -/
def fmtInt (w : Int) : List Char := (toString w).toList

/-- The text `fmt.Sprintf` makes for a node in `node.tree`:
`"权重:%-4d 字符:%c 编码:%s"` when `char > 0`, `"权重:%-4d"` otherwise. -/
def node.label : node → List Char
  | .nil => []
  | .mk c w _ _ _ h =>
    if c > 0 then
      ['权', '重', ':'] ++ padRight 4 (fmtInt w) ++ [' ', '字', '符', ':'] ++ [runeString c]
        ++ [' ', '编', '码', ':'] ++ h
    else ['权', '重', ':'] ++ padRight 4 (fmtInt w)

/-- Field `visited`. -/
def node.visited : node → Bool
  | .nil => false
  | .mk _ _ _ _ v _ => v

/-- `node.resetVisited`. -/
def node.resetVisited : node → node
  | .nil => .nil
  | .mk c w l r _ h => .mk c w l r false h

/-- `node.traverse`: `fn` is applied to the node, then the children are traversed.
`fn` acts on the fields of the node other than `left` and `right`; the only `fn` in the
program is `resetVisited`. -/
def node.traverse (fn : node → node) : node → node
  | .nil => .nil
  | .mk c w l r v h =>
    match fn (.mk c w l r v h) with
    | .nil => .nil
    | .mk c1 w1 _ _ v1 h1 => .mk c1 w1 (l.traverse fn) (r.traverse fn) v1 h1

/-- `nodelist.resetVisted`. -/
def nodelist.resetVisted (list : nodelist) : nodelist :=
  list.map (node.traverse node.resetVisited)

/-- The first loop of `node.tree`, which walks the `parent` pointers from the parent of
the node upwards and puts the segment of each ancestor that has a parent in front of
`str`.  The list `up` stands for the chain of `parent` pointers: it holds, for the node,
its parent, its grandparent and so on, as far as they have a parent, the truth value of
`parent.left == node` together with the parent. -/
def treeIndent (up : List (Bool × node)) : List Char :=
  up.tail.foldl
    (fun str e => (if e.1 then padRight 8 vert_line else padRight 8 [' ']) ++ str) []

/-- The connector that `node.tree` appends when `depth > 0`: `start_left_child` when
`item.parent != nil && item.parent.left == item && item.parent.right != nil`, otherwise
`start_right_child`. -/
def treeConnector (up : List (Bool × node)) (depth : Nat) : List Char :=
  if depth > 0 then
    (match up with
      | (true, parent) :: _ =>
        if parent.right ≠ .nil then start_left_child else start_right_child
      | _ => start_right_child)
  else []

/-- `node.tree`: the node with the `visited` flags set, and the text written to `out`.
For `up` see `treeIndent`. -/
def node.tree : node → List (Bool × node) → Nat → node × List Char
  | .nil, _, _ => (.nil, [])
  | .mk c w l r v h, up, depth =>
    (.mk c w (l.tree ((true, .mk c w l r v h) :: up) (depth + 1)).1
        (r.tree ((false, .mk c w l r v h) :: up) (depth + 1)).1 true h,
      treeIndent up ++ treeConnector up depth ++ (node.mk c w l r v h).label ++ ['\n']
        ++ (l.tree ((true, .mk c w l r v h) :: up) (depth + 1)).2
        ++ (r.tree ((false, .mk c w l r v h) :: up) (depth + 1)).2)

/-- `nodelist.Tree`: the string returned and the forest with the flags it leaves. -/
def nodelist.Tree (list : nodelist) : List Char × nodelist :=
  (nodelist.resetVisted list).foldl
    (fun acc item =>
      if !item.visited then
        (acc.1 ++ (item.tree [] 0).2 ++ ['\n', '\n'], acc.2 ++ [(item.tree [] 0).1])
      else (acc.1 ++ ['\n', '\n'], acc.2 ++ [item]))
    ([], [])

/-- `Tree`, promoted from the embedded `nodelist`: the string returned and the coder
after the call. -/
def HuffmanCoder.Tree (coder : HuffmanCoder) : List Char × HuffmanCoder :=
  ((nodelist.Tree coder.nodelist).1, ⟨(nodelist.Tree coder.nodelist).2, coder.coder⟩)

/-- A call that changes the code: `Append(char, weight)` or `Clear()`. -/
inductive WriteOp where
  | append (char weight : Int)
  | clear

/-- A call that reads: `Tree()`, `Encode(input)` or `Decode(input)`. -/
inductive ReadOp where
  | tree
  | encode (input : List Char)
  | decode (input : List Char)

/-- The coder after a writing call. -/
def HuffmanCoder.write (S : SortImpl) (coder : HuffmanCoder) : WriteOp → HuffmanCoder
  | .append c w => coder.Append S c w
  | .clear => coder.Clear

/-- The coder after a reading call: `Tree` leaves its `visited` flags, `Encode` and
`Decode` assign to nothing but their results. -/
def HuffmanCoder.read (coder : HuffmanCoder) : ReadOp → HuffmanCoder
  | .tree => coder.Tree.2
  | .encode _ => coder
  | .decode _ => coder

/-- The nodes of a tree in pre-order, each with its path from the root: one flag per
step, true for a step to the left child. -/
def node.positions : node → List Bool → List (List Bool × node)
  | .nil, _ => []
  | .mk c w l r v h, path =>
    (path, .mk c w l r v h) :: (l.positions (path ++ [true]) ++ r.positions (path ++ [false]))

/-- The code spelled by a path: `'0'` for a step to the left, `'1'` for one to the
right. -/
def pathCode (path : List Bool) : List Char := path.map (fun b => if b then '0' else '1')

/-- The line of the node `t` at the end of `path`, as the layout is described: for
every ancestor from depth 1 down to the parent a segment of eight columns, the vertical
bar and 7 blanks if the ancestor is a left child and 8 blanks otherwise; then, unless
the node is the root, the connector for a left or for a right child; then the weight
and, for a leaf, the symbol and the code. -/
def layoutLine (path : List Bool) (t : node) : List Char :=
  path.dropLast.flatMap
      (fun isLeft => if isLeft then '┃' :: List.replicate 7 ' ' else List.replicate 8 ' ')
    ++ (match path.getLast? with
        | none => []
        | some true => ['┣', '━', '━']
        | some false => ['┗', '━', '━'])
    ++ (if t.left = .nil ∧ t.right = .nil then
          ['权', '重', ':'] ++ padRight 4 (fmtInt t.weight) ++ [' ', '字', '符', ':']
            ++ [runeString t.char] ++ [' ', '编', '码', ':'] ++ pathCode path
        else ['权', '重', ':'] ++ padRight 4 (fmtInt t.weight))

/-- Every symbol node below holds as its code the path to it, `p` being the path to the
node given. -/
def node.CodedAt : List Char → node → Prop
  | _, .nil => True
  | p, .mk c _ l r _ h => (c > 0 → h = p) ∧ l.CodedAt (p ++ ['0']) ∧ r.CodedAt (p ++ ['1'])

/-- `data.Swap(i, j)` of `nodelist.Swap`; the indices the library passes are in range. -/
def swapAt (data : nodelist) (i j : Nat) : nodelist :=
  if h : i < data.length ∧ j < data.length then (data.set i data[j]).set j data[i] else data

/-- `data.Less(i, j)` of `nodelist.Less`. -/
def lessAt (data : nodelist) (i j : Nat) : Bool :=
  decide (nodelist.Less (data.getD i .nil) (data.getD j .nil))

/-- The library's `order2`: the two indices in the order of their elements, and the
count of swaps. -/
def order2 (data : nodelist) (a b swaps : Nat) : Nat × Nat × Nat :=
  if lessAt data b a then (b, a, swaps + 1) else (a, b, swaps)

/-- The library's `median`: the index of the median of the three elements, and the
count of swaps. -/
def median (data : nodelist) (a b c swaps : Nat) : Nat × Nat :=
  let r1 := order2 data a b swaps
  let r2 := order2 data r1.2.1 c r1.2.2
  let r3 := order2 data r1.1 r2.1 r2.2.2
  (r3.2.1, r3.2.2)

/-- The library's `choosePivot` on a whole slice of 8 to 49 elements: the median of the
elements at one, two and three quarters, and the count of swaps; the hint is
`increasingHint` when the count is 0. -/
def choosePivot (data : nodelist) : Nat × Nat :=
  median data (data.length / 4 * 1) (data.length / 4 * 2) (data.length / 4 * 3) 0

/-- The library's `partialInsertionSort` on a slice of fewer than 50 elements: it moves
nothing and returns whether no element is `Less` than the one before it. -/
def inOrder : nodelist → Bool
  | x :: y :: t => !decide (nodelist.Less y x) && inOrder (y :: t)
  | _ => true

/-- The loop `for i <= j && data.Less(i, a) { i++ }` of the library's `partition`. -/
def scanUp (data : nodelist) (a : Nat) : Nat → Nat → Nat → Nat
  | 0, i, _ => i
  | fuel + 1, i, j => if i ≤ j ∧ lessAt data i a then scanUp data a fuel (i + 1) j else i

/-- The loop `for i <= j && !data.Less(j, a) { j-- }` of the library's `partition`. -/
def scanDown (data : nodelist) (a : Nat) : Nat → Nat → Nat → Nat
  | 0, _, j => j
  | fuel + 1, i, j => if i ≤ j ∧ !lessAt data j a then scanDown data a fuel i (j - 1) else j

/-- The main loop of the library's `partition`: the slice and the final `j`. -/
def partitionLoop (a : Nat) : Nat → nodelist → Nat → Nat → nodelist × Nat
  | 0, data, _, j => (data, j)
  | fuel + 1, data, i, j =>
    let i1 := scanUp data a data.length i j
    let j1 := scanDown data a data.length i1 j
    if i1 > j1 then (data, j1)
    else partitionLoop a fuel (swapAt data i1 j1) (i1 + 1) (j1 - 1)

/-- The library's `partition` of `data[a:b]` around `data[pivot]`: the slice after it
and the new index of the pivot. -/
def partition (data : nodelist) (a b pivot : Nat) : nodelist × Nat :=
  let data1 := swapAt data a pivot
  let i := scanUp data1 a data.length (a + 1) (b - 1)
  let j := scanDown data1 a data.length i (b - 1)
  if i > j then (swapAt data1 j a, j)
  else
    let r := partitionLoop a data.length (swapAt data1 i j) (i + 1) (j - 1)
    (swapAt r.1 r.2 a, r.2)

/-- The first round of the library's `pdqsort` on a whole slice of 13 to 49 elements:
`choosePivot`; when its hint is `increasingHint`, `partialInsertionSort`, after which
the sort is over if the slice was in order; otherwise `partition`. -/
def firstRound (data : nodelist) : nodelist :=
  if (choosePivot data).2 = 0 ∧ inOrder data then data
  else (partition data 0 data.length (choosePivot data).1).1

/-- `sort.Sort` as the library has it since it sorts by `pdqsort`, for slices of up to
13 elements: the insertion sort on at most 12 elements; on more, the first round, after
which the library sorts the elements before the pivot and those after it.  The former
are `Less` than the pivot and the latter are not, so, when both parts have at most 12
elements, as they have for 13, sorting them by insertion is sorting the whole slice by
insertion.  On longer slices the library goes on by further rounds; there this
definition is a sorting procedure, but not the library's. -/
def pdqSort (data : nodelist) : nodelist :=
  if data.length ≤ 12 then insertionSort data else insertionSort (firstRound data)

/-! ## The forest after `Append` -/


theorem node.reset_eq (t : node) (list : nodelist) :
    t.reset list = list ++ t.leaves.map freshLeaf := by
  induction t generalizing list with
  | nil => simp [node.reset, node.leaves]
  | mk c w l r v h ihl ihr =>
    simp only [node.reset, node.leaves]
    rw [ihr, ihl]
    split <;> simp [freshLeaf]

theorem nodelist.reset_foldl (list acc : nodelist) :
    list.foldl (fun newlist item => item.reset newlist) acc
      = acc ++ (list.flatMap node.leaves).map freshLeaf := by
  induction list generalizing acc with
  | nil => simp
  | cons t ts ih =>
    simp only [List.foldl_cons, List.flatMap_cons, List.map_append]
    rw [ih, node.reset_eq, List.append_assoc]

theorem nodelist.reset_fresh (list : nodelist) :
    nodelist.reset list = (list.flatMap node.leaves).map freshLeaf := by
  simpa [nodelist.reset] using nodelist.reset_foldl list []

theorem freshLeaf_proper (p : Int × Int) (h : 0 < p.1) : (freshLeaf p).Proper := by
  simp [freshLeaf, node.Proper, h]

theorem freshLeaf_leaves (p : Int × Int) (h : 0 < p.1) : (freshLeaf p).leaves = [p] := by
  simp [freshLeaf, node.leaves, h]

theorem node.Proper.ne_nil {t : node} (h : t.Proper) : t ≠ .nil := by
  rintro rfl; exact h

theorem node.leaves_pos (t : node) : ∀ p ∈ t.leaves, 0 < p.1 := by
  induction t with
  | nil => simp [node.leaves]
  | mk c w l r v h ihl ihr =>
    intro p hp
    simp only [node.leaves, List.mem_append] at hp
    rcases hp with (hp | hp) | hp
    · split at hp
      · simp at hp; subst hp; assumption
      · simp at hp
    · exact ihl p hp
    · exact ihr p hp


theorem Forest.perm {F G : nodelist} (h : Forest F) (p : G.Perm F) : Forest G :=
  fun t ht => h t (p.subset ht)

theorem flatMap_leaves_perm {F G : nodelist} (p : G.Perm F) :
    (G.flatMap node.leaves).Perm (F.flatMap node.leaves) := by
  exact p.flatMap_right node.leaves

theorem SortImpl.length_sort (S : SortImpl) (l : nodelist) : (S.sort l).length = l.length :=
  (S.perm l).length_eq

theorem SortImpl.sort_singleton (S : SortImpl) (a : node) : S.sort [a] = [a] :=
  List.perm_singleton.1 (S.perm [a])

theorem nodelist.nextStep_short (S : SortImpl) (l : nodelist) (h : l.length < 2) :
    nodelist.nextStep S l = (l, false) := by
  match l, h with
  | [], _ => rfl
  | [_], _ => rfl

/-- The fuel `list.length` is enough: the loop stops because `nextStep` returned
false. -/
theorem nodelist.mergeLoop_exits_aux (S : SortImpl) (fuel : Nat) (l : nodelist)
    (h : l.length ≤ fuel) : (nodelist.nextStep S (nodelist.mergeLoop S fuel l)).2 = false := by
  induction fuel generalizing l with
  | zero =>
    have : l = [] := List.length_eq_zero.1 (Nat.le_zero.1 h)
    subst this; rfl
  | succ n ih =>
    match l, h with
    | [], _ => rfl
    | [_], _ => rfl
    | a :: b :: rest, h =>
      simp only [nodelist.mergeLoop, nodelist.nextStep]
      apply ih
      rw [S.length_sort]
      simp at h ⊢
      omega

theorem nodelist.mergeLoop_exits (S : SortImpl) (l : nodelist) :
    (nodelist.nextStep S (nodelist.mergeLoop S l.length l)).2 = false :=
  nodelist.mergeLoop_exits_aux S l.length l (Nat.le_refl _)

theorem nodelist.mergeLoop_forest (S : SortImpl) (n : Nat) :
    ∀ (fuel : Nat) (F : nodelist), F.length = n + 1 → n + 1 ≤ fuel → Forest F →
      ∃ root, nodelist.mergeLoop S fuel F = [root] ∧ root.Proper ∧
        root.leaves.Perm (F.flatMap node.leaves) := by
  induction n with
  | zero =>
    intro fuel F hlen hfuel hF
    match F, hlen, fuel, hfuel with
    | [a], _, k + 1, _ =>
      refine ⟨a, rfl, hF a (by simp), ?_⟩
      simp
  | succ n ih =>
    intro fuel F hlen hfuel hF
    match F, hlen, fuel, hfuel with
    | a :: b :: rest, hlen, k + 1, hfuel =>
      simp only [nodelist.mergeLoop, nodelist.nextStep]
      have ha : a.Proper := hF a (by simp)
      have hb : b.Proper := hF b (by simp)
      have hperm := S.perm (rest ++ [node.mk 0 (wrapInt (a.weight + b.weight)) a b false []])
      have hF1 : Forest (S.sort (rest ++ [node.mk 0 (wrapInt (a.weight + b.weight)) a b false []])) := by
        refine Forest.perm ?_ hperm
        intro t ht
        rcases List.mem_append.1 ht with ht | ht
        · exact hF t (by simp [ht])
        · simp only [List.mem_singleton] at ht
          subst ht
          exact Or.inr ⟨rfl, ha, hb⟩
      obtain ⟨root, h1, h2, h3⟩ := ih k _ (by rw [S.length_sort]; simp at hlen ⊢; omega)
        (by omega) hF1
      refine ⟨root, h1, h2, h3.trans ?_⟩
      refine (flatMap_leaves_perm hperm).trans ?_
      simp only [List.flatMap_append, List.flatMap_cons, List.flatMap_nil, node.leaves,
        List.append_nil]
      simp only [gt_iff_lt, lt_self_iff_false, ↓reduceIte, List.nil_append]
      exact List.perm_append_comm.trans (by simp)

theorem node.huffmanCode_proper (t : node) (p : List Char) (h : t.Proper) :
    (t.huffmanCode p).Proper := by
  induction t generalizing p with
  | nil => exact h
  | mk c w l r v hc ihl ihr =>
    rcases h with ⟨h1, rfl, rfl⟩ | ⟨h1, h2, h3⟩
    · exact Or.inl ⟨h1, rfl, rfl⟩
    · exact Or.inr ⟨h1, ihl _ h2, ihr _ h3⟩

theorem node.huffmanCode_leaves (t : node) (p : List Char) :
    (t.huffmanCode p).leaves = t.leaves := by
  induction t generalizing p with
  | nil => rfl
  | mk c w l r v hc ihl ihr => simp only [node.huffmanCode, node.leaves, ihl, ihr]

theorem node.huffmanCode_paths (t : node) (p : List Char) :
    (t.huffmanCode p).paths = t.paths := by
  induction t generalizing p with
  | nil => rfl
  | mk c w l r v hc ihl ihr => simp only [node.huffmanCode, node.paths, ihl, ihr]

theorem node.huffmanCode_codes (t : node) (p : List Char) :
    (t.huffmanCode p).codes = t.paths.map (fun q => (q.1, p ++ q.2)) := by
  induction t generalizing p with
  | nil => rfl
  | mk c w l r v hc ihl ihr =>
    simp only [node.huffmanCode, node.codes, node.paths, ihl, ihr, List.map_append,
      List.map_map]
    congr 1
    · congr 1
      · split <;> simp
      · apply List.map_congr_left
        intro q _
        simp
    · apply List.map_congr_left
      intro q _
      simp

theorem flatMap_leaves_fresh (L : List (Int × Int)) (h : ∀ p ∈ L, 0 < p.1) :
    (L.map freshLeaf).flatMap node.leaves = L := by
  induction L with
  | nil => rfl
  | cons p ps ih =>
    simp only [List.map_cons, List.flatMap_cons]
    rw [ih (fun q hq => h q (List.mem_cons_of_mem _ hq)),
      freshLeaf_leaves p (h p (List.mem_cons_self _ _))]
    rfl

theorem flatMap_leaves_pos (F : nodelist) : ∀ p ∈ F.flatMap node.leaves, 0 < p.1 := by
  intro p hp
  obtain ⟨t, _, ht⟩ := List.mem_flatMap.1 hp
  exact node.leaves_pos t p ht

/-- What one `Append` of a symbol `c > 0` does to a forest. -/
theorem nodelist.Append_spec (S : SortImpl) (F : nodelist) (c w : Int) (hc : 0 < c) :
    ∃ root, nodelist.Append S F c w = [root] ∧ root.Proper ∧ root.codes = root.paths ∧
      root.leaves.Perm (F.flatMap node.leaves ++ [(c, w)]) := by
  unfold nodelist.Append nodelist.huffmanCode
  rw [nodelist.reset_fresh]
  have hmap : (F.flatMap node.leaves).map freshLeaf ++ [node.mk c w .nil .nil false []]
      = (F.flatMap node.leaves ++ [(c, w)]).map freshLeaf := by
    simp [freshLeaf]
  rw [hmap]
  have hpos : ∀ p ∈ F.flatMap node.leaves ++ [(c, w)], 0 < p.1 := by
    intro p hp
    rcases List.mem_append.1 hp with hp | hp
    · exact flatMap_leaves_pos F p hp
    · simp only [List.mem_singleton] at hp
      subst hp
      exact hc
  have hperm := S.perm ((F.flatMap node.leaves ++ [(c, w)]).map freshLeaf)
  have hF : Forest (S.sort ((F.flatMap node.leaves ++ [(c, w)]).map freshLeaf)) := by
    refine Forest.perm ?_ hperm
    intro t ht
    obtain ⟨p, hp, rfl⟩ := List.mem_map.1 ht
    exact freshLeaf_proper p (hpos p hp)
  have hlen : (S.sort ((F.flatMap node.leaves ++ [(c, w)]).map freshLeaf)).length
      = (F.flatMap node.leaves).length + 1 := by
    rw [S.length_sort]; simp
  obtain ⟨root, h1, h2, h3⟩ := nodelist.mergeLoop_forest S _ _ _ hlen (Nat.le_of_eq hlen.symm) hF
  rw [h1]
  refine ⟨root.huffmanCode [], rfl, node.huffmanCode_proper _ _ h2, ?_, ?_⟩
  · rw [node.huffmanCode_codes, node.huffmanCode_paths]
    simp
  · rw [node.huffmanCode_leaves]
    refine h3.trans ((flatMap_leaves_perm hperm).trans ?_)
    rw [flatMap_leaves_fresh _ hpos]

theorem build_snoc (S : SortImpl) (apps : List (Int × Int)) (p : Int × Int) :
    build S (apps ++ [p]) = (build S apps).Append S p.1 p.2 := by
  simp [build, List.foldl_append]

theorem build_forest (S : SortImpl) (apps : List (Int × Int)) (hpos : ∀ p ∈ apps, 0 < p.1) :
    ((build S apps).nodelist.flatMap node.leaves).Perm apps := by
  induction apps using List.reverseRecOn with
  | nil => simp [build, NewHuffmanCoder]
  | append_singleton apps p ih =>
    rw [build_snoc]
    obtain ⟨root, h1, _, _, h4⟩ := nodelist.Append_spec S (build S apps).nodelist p.1 p.2
      (hpos p (by simp))
    simp only [HuffmanCoder.Append, h1, List.flatMap_cons, List.flatMap_nil, List.append_nil]
    exact h4.trans ((ih (fun q hq => hpos q (by simp [hq]))).append_right _)

/-- The state after one or more `Append` calls with positive symbols: the forest is a
single code tree whose symbol nodes are the appended pairs, each stored code is the
path to its node, and the map is read off the tree by `getCoder`. -/
theorem build_spec (S : SortImpl) (apps : List (Int × Int)) (hne : apps ≠ [])
    (hpos : ∀ p ∈ apps, 0 < p.1) :
    ∃ root, (build S apps).nodelist = [root] ∧ root.Proper ∧ root.codes = root.paths ∧
      root.leaves.Perm apps ∧ (build S apps).coder = getCoder emptyCoder root := by
  induction apps using List.reverseRecOn with
  | nil => exact absurd rfl hne
  | append_singleton apps p _ =>
    rw [build_snoc]
    obtain ⟨root, h1, h2, h3, h4⟩ := nodelist.Append_spec S (build S apps).nodelist p.1 p.2
      (hpos p (by simp))
    refine ⟨root, by simp [HuffmanCoder.Append, h1], h2, h3, ?_, by simp [HuffmanCoder.Append, h1]⟩
    exact h4.trans ((build_forest S apps (fun q hq => hpos q (by simp [hq]))).append_right _)

theorem nodelist.mergeLoop_ne_nil (S : SortImpl) (fuel : Nat) (l : nodelist) (h : l ≠ []) :
    nodelist.mergeLoop S fuel l ≠ [] := by
  induction fuel generalizing l with
  | zero => exact h
  | succ n ih =>
    match l, h with
    | [a], _ => simp [nodelist.mergeLoop, nodelist.nextStep]
    | a :: b :: rest, _ =>
      simp only [nodelist.mergeLoop, nodelist.nextStep]
      apply ih
      intro e
      have := S.length_sort (rest ++ [node.mk 0 (wrapInt (a.weight + b.weight)) a b false []])
      rw [e] at this
      simp at this

/-- After `nodelist.Append` the forest has a first element, whatever the symbol: the
read `coder.nodelist[0]` in `HuffmanCoder.Append` is always in range. -/
theorem nodelist.Append_ne_nil (S : SortImpl) (list : nodelist) (c w : Int) :
    nodelist.Append S list c w ≠ [] := by
  unfold nodelist.Append nodelist.huffmanCode
  have hne : S.sort (nodelist.reset list ++ [node.mk c w .nil .nil false []]) ≠ [] := by
    intro e
    have := S.length_sort (nodelist.reset list ++ [node.mk c w .nil .nil false []])
    rw [e] at this
    simp at this
  have := nodelist.mergeLoop_ne_nil S
    (S.sort (nodelist.reset list ++ [node.mk c w .nil .nil false []])).length _ hne
  split
  · rename_i e
    exact absurd e this
  · simp

/-! ## The code map -/

theorem getCoder_eq (m : Int → Option (List Char)) (t : node) :
    getCoder m t = t.codes.foldl (fun m p => setCode m p.1 p.2) m := by
  induction t generalizing m with
  | nil => rfl
  | mk c w l r v h ihl ihr =>
    simp only [getCoder, node.codes, List.foldl_append, ihl, ihr]
    split <;> simp

theorem foldl_setCode_not_mem (l : List (Int × List Char)) (m : Int → Option (List Char))
    (k : Int) (hk : k ∉ l.map Prod.fst) :
    (l.foldl (fun m p => setCode m p.1 p.2) m) k = m k := by
  induction l generalizing m with
  | nil => rfl
  | cons p ps ih =>
    simp only [List.map_cons, List.mem_cons, not_or] at hk
    simp only [List.foldl_cons]
    rw [ih _ hk.2]
    simp [setCode, hk.1]

theorem foldl_setCode_mem (l : List (Int × List Char)) (m : Int → Option (List Char))
    (k : Int) (hk : k ∈ l.map Prod.fst) :
    ∃ h, (l.foldl (fun m p => setCode m p.1 p.2) m) k = some h ∧ (k, h) ∈ l := by
  induction l generalizing m with
  | nil => simp at hk
  | cons p ps ih =>
    simp only [List.foldl_cons]
    by_cases hps : k ∈ ps.map Prod.fst
    · obtain ⟨h, h1, h2⟩ := ih (setCode m p.1 p.2) hps
      exact ⟨h, h1, List.mem_cons_of_mem _ h2⟩
    · rw [foldl_setCode_not_mem ps _ k hps]
      simp only [List.map_cons, List.mem_cons] at hk
      rcases hk with hk | hk
      · refine ⟨p.2, by simp [setCode, hk], ?_⟩
        rw [hk]; exact List.mem_cons_self _ _
      · exact absurd hk hps

theorem node.paths_fst (t : node) : t.paths.map Prod.fst = t.leaves.map Prod.fst := by
  induction t with
  | nil => rfl
  | mk c w l r v h ihl ihr =>
    simp only [node.paths, node.leaves, List.map_append, List.map_map, ← ihl, ← ihr]
    congr 1
    · congr 1
      split <;> rfl
    
theorem node.codes_fst (t : node) : t.codes.map Prod.fst = t.leaves.map Prod.fst := by
  induction t with
  | nil => rfl
  | mk c w l r v h ihl ihr =>
    simp only [node.codes, node.leaves, List.map_append, ihl, ihr]
    congr 1
    congr 1
    split <;> rfl

/-- The map read off a tree holds, for a symbol of the tree, the stored code of one of
the nodes that carry the symbol. -/
theorem getCoder_mem (t : node) (k : Int) (hk : k ∈ t.leaves.map Prod.fst) :
    ∃ h, getCoder emptyCoder t k = some h ∧ (k, h) ∈ t.codes := by
  rw [getCoder_eq]
  exact foldl_setCode_mem _ _ k (by rw [node.codes_fst]; exact hk)

/-- The map read off a tree has no entry for a symbol that is not in the tree. -/
theorem getCoder_not_mem (t : node) (k : Int) (hk : k ∉ t.leaves.map Prod.fst) :
    getCoder emptyCoder t k = none := by
  rw [getCoder_eq, foldl_setCode_not_mem _ _ k (by rw [node.codes_fst]; exact hk)]
  rfl

/-! ## Paths of a code tree -/

theorem node.paths_leaf {c w : Int} {v : Bool} {h : List Char} (hc : 0 < c) :
    (node.mk c w .nil .nil v h).paths = [(c, [])] := by
  simp [node.paths, hc]

theorem node.paths_inner {w : Int} {l r : node} {v : Bool} {h : List Char} :
    (node.mk 0 w l r v h).paths
      = l.paths.map (fun p => (p.1, '0' :: p.2)) ++ r.paths.map (fun p => (p.1, '1' :: p.2)) := by
  simp [node.paths]

theorem node.paths_bits (t : node) : ∀ p ∈ t.paths, ∀ b ∈ p.2, b = '0' ∨ b = '1' := by
  induction t with
  | nil => simp [node.paths]
  | mk c w l r v h ihl ihr =>
    intro p hp b hb
    simp only [node.paths, List.mem_append, List.mem_map] at hp
    rcases hp with (hp | ⟨q, hq, rfl⟩) | ⟨q, hq, rfl⟩
    · split at hp
      · simp only [List.mem_singleton] at hp; subst hp; simp at hb
      · simp at hp
    · rcases List.mem_cons.1 hb with rfl | hb
      · exact Or.inl rfl
      · exact ihl q hq b hb
    · rcases List.mem_cons.1 hb with rfl | hb
      · exact Or.inr rfl
      · exact ihr q hq b hb

theorem node.paths_ne_nil_of_inner (t : node) (h0 : t.char = 0) :
    ∀ p ∈ t.paths, p.2 ≠ [] := by
  cases t with
  | nil => simp [node.paths]
  | mk c w l r v h =>
    simp only [node.char] at h0
    subst h0
    rw [node.paths_inner]
    intro p hp
    simp only [List.mem_append, List.mem_map] at hp
    rcases hp with ⟨q, _, rfl⟩ | ⟨q, _, rfl⟩ <;> simp

theorem node.char_zero_of_two_leaves (t : node) (ht : t.Proper) (h2 : 2 ≤ t.leaves.length) :
    t.char = 0 := by
  cases t with
  | nil => exact absurd ht id
  | mk c w l r v h =>
    rcases ht with ⟨h1, rfl, rfl⟩ | ⟨h1, _, _⟩
    · simp [node.leaves, h1] at h2
    · exact h1

theorem runeString_runeOf (c : Char) : runeString (runeOf c) = c := by
  unfold runeString runeOf
  have h1 : (0 : Int) ≤ (c.toNat : Int) := Int.ofNat_nonneg _
  have h2 : ((c.toNat : Int)).toNat = c.toNat := Int.toNat_ofNat _
  rw [h2, if_pos ⟨h1, c.valid⟩]
  exact Char.ofNat_toNat c

/-! ## The decoding walk -/

theorem decodeLoop_nil (root cur : node) (out : List Char) :
    decodeLoop root cur [] out = (out, none) := by
  cases cur <;> rfl

theorem decodeLoop_illegal (root cur : node) (x : Char) (r out : List Char)
    (h0 : x ≠ '0') (h1 : x ≠ '1') :
    decodeLoop root cur (x :: r) out = (out, some (.illegalChar x)) := by
  simp [decodeLoop, h0, h1]

/-- One step of the walk from a symbol-less node of a code tree: the bit selects a
child; a symbol child is emitted and the cursor returns to the root. -/
theorem decodeLoop_bit (root : node) (w : Int) (l r : node) (v : Bool) (h : List Char)
    (b : Char) (hb : b = '0' ∨ b = '1') (rest out : List Char)
    (hl : l.Proper) (hr : r.Proper) :
    decodeLoop root (.mk 0 w l r v h) (b :: rest) out
      = (if 0 < (if b = '0' then l else r).char
          then decodeLoop root root rest (out ++ [runeString (if b = '0' then l else r).char])
          else decodeLoop root (if b = '0' then l else r) rest out) := by
  have key : ∀ t : node, t.Proper →
      (match t with
        | .nil => (out, some Err.decodeFailed)
        | .mk c w l r v h =>
          if c > 0 then decodeLoop root root rest (out ++ [runeString c])
          else decodeLoop root (.mk c w l r v h) rest out)
      = (if 0 < t.char then decodeLoop root root rest (out ++ [runeString t.char])
          else decodeLoop root t rest out) := by
    intro t ht
    cases t with
    | nil => exact absurd ht id
    | mk c w l r v h => simp [node.char]
  rw [decodeLoop, if_pos hb]
  rcases hb with rfl | rfl
  · simpa [node.left] using key l hl
  · simpa [node.right] using key r hr

theorem node.Proper.char_nonneg {t : node} (ht : t.Proper) : 0 ≤ t.char := by
  cases t with
  | nil => exact absurd ht id
  | mk c w l r v h =>
    rcases ht with ⟨h1, _, _⟩ | ⟨h1, _, _⟩
    · exact le_of_lt h1
    · simp [node.char, h1]

theorem node.Proper.paths_of_pos {t : node} (ht : t.Proper) (hc : 0 < t.char) :
    t.paths = [(t.char, [])] := by
  cases t with
  | nil => exact absurd ht id
  | mk c w l r v h =>
    rcases ht with ⟨h1, rfl, rfl⟩ | ⟨h1, _, _⟩
    · exact node.paths_leaf h1
    · simp [node.char, h1] at hc

/-- Walking the path of a symbol node from a symbol-less node of a code tree emits the
symbol and returns the cursor to the root. -/
theorem decodeLoop_path (root : node) (cur : node) (hcur : cur.Proper) (h0 : cur.char = 0)
    (x : Int) (q : List Char) (hq : (x, q) ∈ cur.paths) (rest out : List Char) :
    decodeLoop root cur (q ++ rest) out = decodeLoop root root rest (out ++ [runeString x]) := by
  induction cur generalizing q with
  | nil => exact absurd hcur id
  | mk c w l r v h ihl ihr =>
    simp only [node.char] at h0
    subst h0
    rcases hcur with ⟨h1, _, _⟩ | ⟨_, hl, hr⟩
    · exact absurd h1 (lt_irrefl _)
    rw [node.paths_inner] at hq
    simp only [List.mem_append, List.mem_map, Prod.mk.injEq] at hq
    rcases hq with ⟨p, hp, rfl, rfl⟩ | ⟨p, hp, rfl, rfl⟩
    · rw [List.cons_append, decodeLoop_bit root w l r v h '0' (Or.inl rfl) _ _ hl hr]
      simp only [if_true]
      by_cases hc : 0 < l.char
      · rw [if_pos hc]
        rw [hl.paths_of_pos hc] at hp
        simp only [List.mem_singleton] at hp
        subst hp
        rfl
      · rw [if_neg hc]
        exact ihl hl (le_antisymm (not_lt.1 hc) hl.char_nonneg) p.2 hp
    · rw [List.cons_append, decodeLoop_bit root w l r v h '1' (Or.inr rfl) _ _ hl hr]
      have h10 : ¬ ('1' = '0') := by decide
      simp only [h10, if_false]
      by_cases hc : 0 < r.char
      · rw [if_pos hc]
        rw [hr.paths_of_pos hc] at hp
        simp only [List.mem_singleton] at hp
        subst hp
        rfl
      · rw [if_neg hc]
        exact ihr hr (le_antisymm (not_lt.1 hc) hr.char_nonneg) p.2 hp

/-- On a code tree with a symbol-less root, a run of bits never leaves the tree: the
walk ends on a symbol-less node of the tree, whatever follows the run. -/
theorem decodeLoop_bits (root : node) (hroot : root.Proper) (hr0 : root.char = 0)
    (p : List Char) (hp : ∀ b ∈ p, b = '0' ∨ b = '1') :
    ∀ (cur : node) (out : List Char), cur.Proper → cur.char = 0 →
      ∃ cur1 out1, cur1.Proper ∧ cur1.char = 0 ∧
        ∀ rest, decodeLoop root cur (p ++ rest) out = decodeLoop root cur1 rest out1 := by
  induction p with
  | nil => exact fun cur out h1 h2 => ⟨cur, out, h1, h2, fun _ => rfl⟩
  | cons b bs ih =>
    intro cur out hcur h0
    have hbs : ∀ b ∈ bs, b = '0' ∨ b = '1' := fun x hx => hp x (List.mem_cons_of_mem _ hx)
    cases cur with
    | nil => exact absurd hcur id
    | mk c w l r v h =>
      simp only [node.char] at h0
      subst h0
      rcases hcur with ⟨h1, _, _⟩ | ⟨_, hl, hr⟩
      · exact absurd h1 (lt_irrefl _)
      have hnext : (if b = '0' then l else r).Proper := by
        split
        · exact hl
        · exact hr
      by_cases hc : 0 < (if b = '0' then l else r).char
      · obtain ⟨cur1, out1, h1, h2, h3⟩ :=
          ih hbs root (out ++ [runeString (if b = '0' then l else r).char]) hroot hr0
        refine ⟨cur1, out1, h1, h2, fun rest => ?_⟩
        rw [List.cons_append,
          decodeLoop_bit root w l r v h b (hp b (List.mem_cons_self _ _)) _ _ hl hr,
          if_pos hc]
        exact h3 rest
      · obtain ⟨cur1, out1, h1, h2, h3⟩ :=
          ih hbs (if b = '0' then l else r) out hnext
            (le_antisymm (not_lt.1 hc) hnext.char_nonneg)
        refine ⟨cur1, out1, h1, h2, fun rest => ?_⟩
        rw [List.cons_append,
          decodeLoop_bit root w l r v h b (hp b (List.mem_cons_self _ _)) _ _ hl hr,
          if_neg hc]
        exact h3 rest

/-! ## Encoding and decoding a text -/


theorem encodeLoop_ok (m : Int → Option (List Char)) (s : List Char)
    (hs : ∀ ch ∈ s, getCode m (runeOf ch) ≠ []) (out : List Char) :
    encodeLoop m s out = (out ++ codesOf m s, none) := by
  induction s generalizing out with
  | nil => simp [encodeLoop, codesOf]
  | cons ch rest ih =>
    have h1 : (getCode m (runeOf ch)).length > 0 :=
      List.length_pos.2 (hs ch (List.mem_cons_self _ _))
    rw [encodeLoop, if_pos h1, ih (fun x hx => hs x (List.mem_cons_of_mem _ hx))]
    simp [codesOf]

theorem encodeLoop_stop (m : Int → Option (List Char)) (p : List Char) (x : Char)
    (r : List Char) (hp : ∀ ch ∈ p, getCode m (runeOf ch) ≠ [])
    (hx : getCode m (runeOf x) = []) (out : List Char) :
    encodeLoop m (p ++ x :: r) out = (out ++ codesOf m p, some (.unrecognized x)) := by
  induction p generalizing out with
  | nil => simp [encodeLoop, codesOf, hx]
  | cons ch rest ih =>
    have h1 : (getCode m (runeOf ch)).length > 0 :=
      List.length_pos.2 (hp ch (List.mem_cons_self _ _))
    rw [List.cons_append, encodeLoop, if_pos h1,
      ih (fun y hy => hp y (List.mem_cons_of_mem _ hy))]
    simp [codesOf]

theorem decodeLoop_codes (root : node) (hroot : root.Proper) (h0 : root.char = 0)
    (m : Int → Option (List Char)) (s : List Char)
    (hs : ∀ ch ∈ s, (runeOf ch, getCode m (runeOf ch)) ∈ root.paths) (rest out : List Char) :
    decodeLoop root root (codesOf m s ++ rest) out = decodeLoop root root rest (out ++ s) := by
  induction s generalizing out with
  | nil => simp [codesOf]
  | cons ch t ih =>
    have e : codesOf m (ch :: t) ++ rest = getCode m (runeOf ch) ++ (codesOf m t ++ rest) := by
      simp [codesOf]
    rw [e, decodeLoop_path root root hroot h0 _ _ (hs ch (List.mem_cons_self _ _)),
      ih (fun x hx => hs x (List.mem_cons_of_mem _ hx)), runeString_runeOf]
    simp

/-- The facts about the coder after two or more `Append` calls with positive symbols
that the properties of `Encode` and `Decode` rest on. -/
theorem build_two (S : SortImpl) (apps : List (Int × Int)) (h2 : 2 ≤ apps.length)
    (hpos : ∀ p ∈ apps, 0 < p.1) :
    ∃ root, (build S apps).nodelist = [root] ∧ root.Proper ∧ root.char = 0 ∧
      (∀ k ∈ apps.map Prod.fst,
        (k, getCode (build S apps).coder k) ∈ root.paths ∧
          getCode (build S apps).coder k ≠ []) ∧
      (∀ k, k ∉ apps.map Prod.fst → getCode (build S apps).coder k = []) := by
  have hne : apps ≠ [] := by
    intro h; rw [h] at h2; simp at h2
  obtain ⟨root, h1, hP, hcodes, hleaves, hmap⟩ := build_spec S apps hne hpos
  have hlen : 2 ≤ root.leaves.length := by rw [hleaves.length_eq]; exact h2
  have hc0 := node.char_zero_of_two_leaves root hP hlen
  have hfst : ∀ k, k ∈ root.leaves.map Prod.fst ↔ k ∈ apps.map Prod.fst :=
    fun k => (hleaves.map Prod.fst).mem_iff
  refine ⟨root, h1, hP, hc0, ?_, ?_⟩
  · intro k hk
    obtain ⟨h, hh1, hh2⟩ := getCoder_mem root k ((hfst k).2 hk)
    rw [hcodes] at hh2
    have e : getCode (build S apps).coder k = h := by simp [getCode, hmap, hh1]
    rw [e]
    exact ⟨hh2, node.paths_ne_nil_of_inner root hc0 _ hh2⟩
  · intro k hk
    have := getCoder_not_mem root k (fun h => hk ((hfst k).1 h))
    simp [getCode, hmap, this]

theorem codesOf_bits (root : node) (m : Int → Option (List Char)) (s : List Char)
    (hs : ∀ ch ∈ s, (runeOf ch, getCode m (runeOf ch)) ∈ root.paths) :
    ∀ b ∈ codesOf m s, b = '0' ∨ b = '1' := by
  intro b hb
  obtain ⟨ch, hch, hb⟩ := List.mem_flatMap.1 hb
  exact node.paths_bits root _ (hs ch hch) b hb

theorem codesOf_ne_nil (m : Int → Option (List Char)) (s : List Char) (hne : s ≠ [])
    (hs : ∀ ch ∈ s, getCode m (runeOf ch) ≠ []) : codesOf m s ≠ [] := by
  cases s with
  | nil => exact absurd rfl hne
  | cons ch t =>
    have := hs ch (List.mem_cons_self _ _)
    simp [codesOf, this]

/-- C2.  Round trip on a tree with at least two leaves: after two or more `Append`
calls with positive symbols (any weights, symbols possibly repeated), `Encode` of a
non-empty text of appended symbols returns a non-empty string of `'0'` and `'1'` and no
error, and `Decode` of that string returns the text and no error. -/
theorem roundtrip_two_leaves (S : SortImpl) (apps : List (Int × Int)) (s : List Char)
    (h2 : 2 ≤ apps.length) (hpos : ∀ p ∈ apps, 0 < p.1) (hne : s ≠ [])
    (hs : ∀ ch ∈ s, runeOf ch ∈ apps.map Prod.fst) :
    ∃ c, (build S apps).Encode s = (c, none) ∧ c ≠ [] ∧ (∀ b ∈ c, b = '0' ∨ b = '1') ∧
      (build S apps).Decode c = (s, none) := by
  obtain ⟨root, h1, hP, hc0, hin, _⟩ := build_two S apps h2 hpos
  have hs1 : ∀ ch ∈ s, getCode (build S apps).coder (runeOf ch) ≠ [] :=
    fun ch hch => (hin _ (hs ch hch)).2
  have hs2 : ∀ ch ∈ s,
      (runeOf ch, getCode (build S apps).coder (runeOf ch)) ∈ root.paths :=
    fun ch hch => (hin _ (hs ch hch)).1
  have hcne := codesOf_ne_nil _ s hne hs1
  refine ⟨codesOf (build S apps).coder s, ?_, hcne, codesOf_bits root _ s hs2, ?_⟩
  · simp [HuffmanCoder.Encode, encodeLoop_ok _ s hs1]
  · have hlen : (codesOf (build S apps).coder s).length ≠ 0 :=
      fun h => hcne (List.length_eq_zero.1 h)
    have := decodeLoop_codes root hP hc0 _ s hs2 [] []
    simp only [List.append_nil, List.nil_append, decodeLoop_nil] at this
    simp [HuffmanCoder.Decode, nodelist.Decode, h1, hlen, this]

theorem roundtrip_two_leaves_witness :
    ∃ c, (build goSort [(97, 1), (98, 2)]).Encode ['a', 'b', 'a'] = (c, none) ∧ c ≠ [] ∧
      (∀ b ∈ c, b = '0' ∨ b = '1') ∧
      (build goSort [(97, 1), (98, 2)]).Decode c = (['a', 'b', 'a'], none) :=
  roundtrip_two_leaves goSort [(97, 1), (98, 2)] ['a', 'b', 'a'] (by decide) (by decide)
    (by decide) (by decide)

/-! ## Round trip for every text (C1) -/

/-- C1, as the code has it.  After two or more `Append` calls with positive symbols,
for every text `s` of appended symbols (the empty text included), the output of `Decode`
applied to the output of `Encode s` is `s`. -/
theorem roundtrip_output (S : SortImpl) (apps : List (Int × Int)) (s : List Char)
    (h2 : 2 ≤ apps.length) (hpos : ∀ p ∈ apps, 0 < p.1)
    (hs : ∀ ch ∈ s, runeOf ch ∈ apps.map Prod.fst) :
    ((build S apps).Decode ((build S apps).Encode s).1).1 = s := by
  obtain ⟨root, h1, hP, hc0, hin, _⟩ := build_two S apps h2 hpos
  have hs1 : ∀ ch ∈ s, getCode (build S apps).coder (runeOf ch) ≠ [] :=
    fun ch hch => (hin _ (hs ch hch)).2
  have hs2 : ∀ ch ∈ s,
      (runeOf ch, getCode (build S apps).coder (runeOf ch)) ∈ root.paths :=
    fun ch hch => (hin _ (hs ch hch)).1
  have henc : ((build S apps).Encode s).1 = codesOf (build S apps).coder s := by
    simp [HuffmanCoder.Encode, encodeLoop_ok _ s hs1]
  rw [henc]
  by_cases hne : s = []
  · subst hne
    simp [codesOf, HuffmanCoder.Decode, nodelist.Decode, h1]
  · have hlen : (codesOf (build S apps).coder s).length ≠ 0 :=
      fun h => codesOf_ne_nil _ s hne hs1 (List.length_eq_zero.1 h)
    have := decodeLoop_codes root hP hc0 _ s hs2 [] []
    simp only [List.append_nil, List.nil_append, decodeLoop_nil] at this
    simp [HuffmanCoder.Decode, nodelist.Decode, h1, hlen, this]

theorem roundtrip_output_witness :
    ((build goSort [(97, 1), (98, 2), (99, 1)]).Decode
      ((build goSort [(97, 1), (98, 2), (99, 1)]).Encode ['c', 'a', 'b']).1).1
      = ['c', 'a', 'b'] :=
  roundtrip_output goSort [(97, 1), (98, 2), (99, 1)] ['c', 'a', 'b'] (by decide) (by decide)
    (by decide)

/-- C1 as stated fails.  After `Append(0, 1)`, `Append('a', 1)`, `Append('b', 2)` the
symbol `0` was appended, yet `Encode` of the text made of that symbol yields `""`, and
`Decode("")` yields `""`, not the text.  After the single call `Append('a', 1)` the
text `"a"` fails in the same way. -/
theorem roundtrip_one_append_counterexample :
    (∀ ch ∈ [Char.ofNat 0], runeOf ch ∈ [((0 : Int), (1 : Int)), (97, 1), (98, 2)].map Prod.fst) ∧
    ((build goSort [(0, 1), (97, 1), (98, 2)]).Decode
      ((build goSort [(0, 1), (97, 1), (98, 2)]).Encode [Char.ofNat 0]).1).1
      ≠ [Char.ofNat 0] ∧
    ((build goSort [(97, 1)]).Decode ((build goSort [(97, 1)]).Encode ['a']).1).1 ≠ ['a'] := by
  decide

/-! ## No code is an initial segment of another (C3) and the leaves are kept (C4) -/


theorem Unrelated.symm : Symmetric Unrelated := fun _ _ h => ⟨h.2, h.1⟩

theorem node.paths_unrelated (t : node) (ht : t.Proper) : t.paths.Pairwise Unrelated := by
  induction t with
  | nil => exact absurd ht id
  | mk c w l r v h ihl ihr =>
    rcases ht with ⟨h1, rfl, rfl⟩ | ⟨rfl, hl, hr⟩
    · rw [node.paths_leaf h1]
      exact List.pairwise_singleton _ _
    · rw [node.paths_inner, List.pairwise_append]
      refine ⟨?_, ?_, ?_⟩
      · rw [List.pairwise_map]
        refine (ihl hl).imp ?_
        intro a b hab
        refine ⟨fun h => hab.1 ?_, fun h => hab.2 ?_⟩
        · exact (List.cons_prefix_cons.1 h).2
        · exact (List.cons_prefix_cons.1 h).2
      · rw [List.pairwise_map]
        refine (ihr hr).imp ?_
        intro a b hab
        refine ⟨fun h => hab.1 ?_, fun h => hab.2 ?_⟩
        · exact (List.cons_prefix_cons.1 h).2
        · exact (List.cons_prefix_cons.1 h).2
      · intro a ha b hb
        obtain ⟨p, _, rfl⟩ := List.mem_map.1 ha
        obtain ⟨q, _, rfl⟩ := List.mem_map.1 hb
        refine ⟨fun h => ?_, fun h => ?_⟩
        · exact absurd (List.cons_prefix_cons.1 h).1 (by decide)
        · exact absurd (List.cons_prefix_cons.1 h).1 (by decide)

theorem getCoder_some (t : node) (k : Int) (h : List Char)
    (hk : getCoder emptyCoder t k = some h) : (k, h) ∈ t.codes := by
  by_cases hmem : k ∈ t.leaves.map Prod.fst
  · obtain ⟨h1, e, hin⟩ := getCoder_mem t k hmem
    rw [e] at hk
    cases hk
    exact hin
  · rw [getCoder_not_mem t k hmem] at hk
    cases hk

/-- C3.  After one or more `Append` calls with positive symbols the forest is one tree,
and of the codes stored in two different symbol nodes of that tree neither is an initial
segment of the other; hence, for two different symbols of the symbol-to-code map, the
code of the one is not an initial segment of the code of the other (this holds whether
or not the appended symbols are pairwise distinct). -/
theorem codes_unrelated (S : SortImpl) (apps : List (Int × Int)) (hne : apps ≠ [])
    (hpos : ∀ p ∈ apps, 0 < p.1) :
    ∃ root, (build S apps).nodelist = [root] ∧ root.codes.Pairwise Unrelated ∧
      ∀ x y cx cy, x ≠ y → (build S apps).coder x = some cx →
        (build S apps).coder y = some cy → ¬ cx <+: cy := by
  obtain ⟨root, h1, hP, hcodes, _, hmap⟩ := build_spec S apps hne hpos
  have hpw : root.codes.Pairwise Unrelated := by
    rw [hcodes]; exact node.paths_unrelated root hP
  refine ⟨root, h1, hpw, ?_⟩
  intro x y cx cy hxy hx hy
  rw [hmap] at hx hy
  have hx1 := getCoder_some root x cx hx
  have hy1 := getCoder_some root y cy hy
  have hne1 : (x, cx) ≠ (y, cy) := fun e => hxy (congrArg Prod.fst e)
  exact (hpw.forall Unrelated.symm hx1 hy1 hne1).1

theorem codes_unrelated_witness :
    ∃ root, (build goSort [(97, 1), (98, 2), (97, 3)]).nodelist = [root] ∧
      root.codes.Pairwise Unrelated ∧
      ∀ x y cx cy, x ≠ y → (build goSort [(97, 1), (98, 2), (97, 3)]).coder x = some cx →
        (build goSort [(97, 1), (98, 2), (97, 3)]).coder y = some cy → ¬ cx <+: cy :=
  codes_unrelated goSort [(97, 1), (98, 2), (97, 3)] (by decide) (by decide)

/-- C4.  After `N ≥ 1` calls `Append(symbol_i, weight_i)` with positive symbols
(repetitions allowed) the forest has exactly one element, a code tree, and the list of
`(symbol, weight)` pairs of its symbol nodes is a rearrangement of the list of the `N`
appended pairs: every appended pair is there once, with its weight. -/
theorem leaves_kept (S : SortImpl) (apps : List (Int × Int)) (hne : apps ≠ [])
    (hpos : ∀ p ∈ apps, 0 < p.1) :
    ∃ root, (build S apps).nodelist = [root] ∧ root.Proper ∧ root.leaves.Perm apps := by
  obtain ⟨root, h1, hP, _, hleaves, _⟩ := build_spec S apps hne hpos
  exact ⟨root, h1, hP, hleaves⟩

theorem leaves_kept_witness :
    ∃ root, (build goSort [(97, 5), (98, 2), (97, 5), (99, -1)]).nodelist = [root] ∧
      root.Proper ∧ root.leaves.Perm [(97, 5), (98, 2), (97, 5), (99, -1)] :=
  leaves_kept goSort [(97, 5), (98, 2), (97, 5), (99, -1)] (by decide) (by decide)

/-! ## Errors of `Encode` and `Decode` (C7 to C10) -/

theorem node.Proper.leaves_ne_nil {t : node} (ht : t.Proper) : t.leaves ≠ [] := by
  induction t with
  | nil => exact absurd ht id
  | mk c w l r v h ihl _ =>
    rcases ht with ⟨h1, rfl, rfl⟩ | ⟨rfl, hl, _⟩
    · simp [node.leaves, h1]
    · have := ihl hl
      simp [node.leaves, this]

theorem node.Proper.paths_of_one_leaf {t : node} (ht : t.Proper) (h1 : t.leaves.length = 1) :
    ∀ p ∈ t.paths, p.2 = [] := by
  cases t with
  | nil => exact absurd ht id
  | mk c w l r v h =>
    rcases ht with ⟨hc, rfl, rfl⟩ | ⟨rfl, hl, hr⟩
    · rw [node.paths_leaf hc]
      intro p hp
      simp only [List.mem_singleton] at hp
      rw [hp]
    · have hl1 := List.length_pos.2 hl.leaves_ne_nil
      have hr1 := List.length_pos.2 hr.leaves_ne_nil
      simp [node.leaves] at h1
      omega

/-- After at most one `Append` the map holds no non-empty code. -/
theorem build_short (S : SortImpl) (apps : List (Int × Int)) (h1 : apps.length ≤ 1)
    (hpos : ∀ p ∈ apps, 0 < p.1) : ∀ k, getCode (build S apps).coder k = [] := by
  intro k
  by_cases hne : apps = []
  · subst hne
    rfl
  · obtain ⟨root, _, hP, hcodes, hleaves, hmap⟩ := build_spec S apps hne hpos
    have hlen : root.leaves.length = 1 := by
      have := List.length_pos.2 hne
      rw [hleaves.length_eq]; omega
    cases hk : (build S apps).coder k with
    | none => simp [getCode, hk]
    | some h =>
      rw [hmap] at hk
      have hin := getCoder_some root k h hk
      rw [hcodes] at hin
      have := hP.paths_of_one_leaf hlen _ hin
      simp only at this
      simp [getCode, hmap, hk, this]

theorem encodeLoop_no_code (m : Int → Option (List Char)) (hm : ∀ k, getCode m k = [])
    (ch : Char) (t out : List Char) :
    encodeLoop m (ch :: t) out = (out, some (.unrecognized ch)) := by
  simp [encodeLoop, hm]

theorem codesOf_no_code (m : Int → Option (List Char)) (hm : ∀ k, getCode m k = [])
    (s : List Char) : codesOf m s = [] := by
  simp [codesOf, hm]

/-- C7.  On a coder built by `Append` calls with positive symbols, for a text
`p ++ x :: r` in which the symbols of `p` were appended and `x` never was, `Encode`
returns an unrecognized-symbol error, and its output is the concatenation, in order, of
the codes of the symbols of `p`: nothing from `x` on is encoded.  After two or more
`Append` calls the error names `x`. -/
theorem encode_stops (S : SortImpl) (apps : List (Int × Int)) (p : List Char) (x : Char)
    (r : List Char) (hpos : ∀ q ∈ apps, 0 < q.1)
    (hp : ∀ ch ∈ p, runeOf ch ∈ apps.map Prod.fst) (hx : runeOf x ∉ apps.map Prod.fst) :
    ((build S apps).Encode (p ++ x :: r)).1 = codesOf (build S apps).coder p ∧
      (∃ ch, ((build S apps).Encode (p ++ x :: r)).2 = some (.unrecognized ch)) ∧
      (2 ≤ apps.length →
        ((build S apps).Encode (p ++ x :: r)).2 = some (.unrecognized x)) := by
  by_cases h2 : 2 ≤ apps.length
  · obtain ⟨root, _, _, _, hin, hout⟩ := build_two S apps h2 hpos
    have e := encodeLoop_stop (build S apps).coder p x r
      (fun ch hch => (hin _ (hp ch hch)).2) (hout _ hx) []
    simp only [List.nil_append] at e
    have e1 : (build S apps).Encode (p ++ x :: r)
        = (codesOf (build S apps).coder p, some (.unrecognized x)) := e
    rw [e1]
    exact ⟨rfl, ⟨x, rfl⟩, fun _ => rfl⟩
  · have hm := build_short S apps (by omega) hpos
    rw [codesOf_no_code _ hm]
    refine ⟨?_, ?_, fun h => absurd h h2⟩
    · cases p with
      | nil => simp [HuffmanCoder.Encode, encodeLoop_no_code _ hm]
      | cons ch t => simp [HuffmanCoder.Encode, encodeLoop_no_code _ hm]
    · cases p with
      | nil => exact ⟨x, by simp [HuffmanCoder.Encode, encodeLoop_no_code _ hm]⟩
      | cons ch t => exact ⟨ch, by simp [HuffmanCoder.Encode, encodeLoop_no_code _ hm]⟩

theorem encode_stops_witness :
    ((build goSort [(97, 1), (99, 1)]).Encode ['b']).1 = [] ∧
      (∃ ch, ((build goSort [(97, 1), (99, 1)]).Encode ['b']).2 = some (.unrecognized ch)) ∧
      (2 ≤ [((97 : Int), (1 : Int)), (99, 1)].length →
        ((build goSort [(97, 1), (99, 1)]).Encode ['b']).2 = some (.unrecognized 'b')) :=
  encode_stops goSort [(97, 1), (99, 1)] [] 'b' [] (by decide) (by decide) (by decide)

/-- C8.  On an empty forest (a fresh coder, or any coder after `Clear`) `Decode`
returns the empty-tree error and an empty output for every input, the empty input
included; on a non-empty forest `Decode` of the empty input returns the empty-input
error and an empty output. -/
theorem decode_preconditions (coder : HuffmanCoder) (input : List Char) (t : node)
    (F : nodelist) :
    NewHuffmanCoder.Decode input = ([], some .emptyTree) ∧
      NewHuffmanCoder.Decode [] = ([], some .emptyTree) ∧
      coder.Clear.Decode input = ([], some .emptyTree) ∧
      coder.Clear.Decode [] = ([], some .emptyTree) ∧
      nodelist.Decode [] input = ([], some .emptyTree) ∧
      nodelist.Decode (t :: F) [] = ([], some .emptyInput) :=
  ⟨rfl, rfl, rfl, rfl, rfl, rfl⟩

/-- C9.  On a forest built by two or more `Append` calls with positive symbols, for an
input `p ++ x :: r` with `p` made of `'0'` and `'1'` and `x` neither of them, `Decode`
returns the illegal-character error for `x`, and its output is the output of `Decode p`:
nothing of `r` is consumed.  With `p` empty this holds on every non-empty forest. -/
theorem decode_illegal (S : SortImpl) (apps : List (Int × Int)) (p : List Char) (x : Char)
    (r : List Char) (h2 : 2 ≤ apps.length) (hpos : ∀ q ∈ apps, 0 < q.1)
    (hp : ∀ b ∈ p, b = '0' ∨ b = '1') (hx0 : x ≠ '0') (hx1 : x ≠ '1') :
    (build S apps).Decode (p ++ x :: r)
        = (((build S apps).Decode p).1, some (.illegalChar x)) ∧
      ∀ (t : node) (F : nodelist),
        nodelist.Decode (t :: F) (x :: r) = ([], some (.illegalChar x)) := by
  constructor
  · obtain ⟨root, h1, hP, hc0, _, _⟩ := build_two S apps h2 hpos
    obtain ⟨cur1, out1, _, _, h3⟩ := decodeLoop_bits root hP hc0 p hp root [] hP hc0
    have e1 := h3 (x :: r)
    rw [decodeLoop_illegal root cur1 x r out1 hx0 hx1] at e1
    have e2 := h3 []
    rw [List.append_nil, decodeLoop_nil] at e2
    have hout : ((build S apps).Decode p).1 = out1 := by
      cases p with
      | nil =>
        rw [decodeLoop_nil] at e2
        simp only [Prod.mk.injEq, and_true] at e2
        simp [HuffmanCoder.Decode, nodelist.Decode, h1, ← e2]
      | cons b bs => simp [HuffmanCoder.Decode, nodelist.Decode, h1, e2]
    rw [hout]
    simp [HuffmanCoder.Decode, nodelist.Decode, h1, e1]
  · intro t F
    simp [nodelist.Decode, decodeLoop_illegal t t x r [] hx0 hx1]

theorem decode_illegal_witness :
    (build goSort [(97, 1), (98, 2)]).Decode (['0', '1', '1'] ++ '2' :: ['0'])
        = (((build goSort [(97, 1), (98, 2)]).Decode ['0', '1', '1']).1,
            some (.illegalChar '2')) ∧
      ∀ (t : node) (F : nodelist),
        nodelist.Decode (t :: F) ('2' :: ['0']) = ([], some (.illegalChar '2')) :=
  decode_illegal goSort [(97, 1), (98, 2)] ['0', '1', '1'] '2' ['0'] (by decide) (by decide)
    (by decide) (by decide) (by decide)

/-- C10, what the code does.  After exactly one `Append(x, w)` of a positive symbol on
a fresh coder, `Encode` of every non-empty text made of `x` alone returns the
unrecognized-symbol error for `x`, with an empty output: the only code is the empty
path of the root, and `Encode` takes an empty code for a missing one. -/
theorem single_symbol_encode (S : SortImpl) (x : Char) (w : Int) (k : Nat)
    (hx : 0 < runeOf x) :
    (build S [(runeOf x, w)]).Encode (List.replicate (k + 1) x)
      = ([], some (.unrecognized x)) := by
  have hm := build_short S [(runeOf x, w)] (by simp) (by simpa using hx)
  simp [HuffmanCoder.Encode, List.replicate_succ, encodeLoop_no_code _ hm]

theorem single_symbol_encode_witness :
    (build goSort [(runeOf 'a', 7)]).Encode (List.replicate (2 + 1) 'a')
      = ([], some (.unrecognized 'a')) :=
  single_symbol_encode goSort 'a' 7 2 (by decide)

/-! ## Builds without ties do not depend on the sorting procedure -/


theorem eq_of_perm_of_map_eq {α β : Type} (f : α → β) :
    ∀ (l1 l2 : List α), l1.Perm l2 → l1.map f = l2.map f → (l2.map f).Nodup → l1 = l2
  | [], [], _, _, _ => rfl
  | [], _ :: _, hp, _, _ => absurd hp.length_eq (by simp)
  | _ :: _, [], hp, _, _ => absurd hp.length_eq (by simp)
  | a :: t1, b :: t2, hp, hm, hn => by
    simp only [List.map_cons, List.cons.injEq] at hm
    have hinj := List.inj_on_of_nodup_map hn
    have ha : a ∈ b :: t2 := hp.subset (List.mem_cons_self _ _)
    have hab : a = b := hinj ha (List.mem_cons_self _ _) hm.1
    subst hab
    rw [List.map_cons, List.nodup_cons] at hn
    rw [eq_of_perm_of_map_eq f t1 t2 (List.Perm.cons_inv hp) hm.2 hn.2]

/-- A list that some rearrangement sorts strictly is sorted in one way only. -/
theorem SortImpl.sort_eq_of_strict (S : SortImpl) (l0 l : nodelist) (hp : l.Perm l0)
    (hl : l.Pairwise (fun a b => a.weight < b.weight)) : S.sort l0 = l := by
  have hperm : (S.sort l0).Perm l := (S.perm l0).trans hp.symm
  have hs1 : ((S.sort l0).map node.weight).Sorted (· ≤ ·) := by
    unfold List.Sorted
    rw [List.pairwise_map]
    exact (S.sorted l0).imp (fun h => not_lt.1 h)
  have hl2 : (l.map node.weight).Pairwise (· < ·) := by
    rw [List.pairwise_map]; exact hl
  have hs2 : (l.map node.weight).Sorted (· ≤ ·) := hl2.imp le_of_lt
  have hw : (S.sort l0).map node.weight = l.map node.weight :=
    List.eq_of_perm_of_sorted (hperm.map _) hs1 hs2
  have hn : (l.map node.weight).Nodup := hl2.imp ne_of_lt
  exact eq_of_perm_of_map_eq node.weight _ _ hperm hw hn

theorem SortImpl.sort_eq_insertionSort (S : SortImpl) (l0 : nodelist)
    (h : strictList (insertionSort l0) = true) : S.sort l0 = insertionSort l0 :=
  S.sort_eq_of_strict l0 _ (goSort.perm l0) (of_decide_eq_true h)

theorem mergeLoop_tieFree (S : SortImpl) (fuel : Nat) (l : nodelist)
    (h : mergeTieFree fuel l = true) :
    nodelist.mergeLoop S fuel l = nodelist.mergeLoop goSort fuel l := by
  induction fuel generalizing l with
  | zero => rfl
  | succ n ih =>
    match l, h with
    | [], _ => rfl
    | [_], _ => rfl
    | a :: b :: rest, h =>
      simp only [mergeTieFree, Bool.and_eq_true] at h
      simp only [nodelist.mergeLoop, nodelist.nextStep]
      rw [S.sort_eq_insertionSort _ h.1]
      exact ih _ h.2

theorem Append_tieFree (S : SortImpl) (list : nodelist) (c w : Int)
    (h : appendTieFree list c w = true) :
    nodelist.Append S list c w = nodelist.Append goSort list c w := by
  simp only [appendTieFree, Bool.and_eq_true] at h
  unfold nodelist.Append nodelist.huffmanCode
  rw [S.sort_eq_insertionSort _ h.1]
  have e : goSort.sort (nodelist.reset list ++ [node.mk c w .nil .nil false []])
      = insertionSort (nodelist.reset list ++ [node.mk c w .nil .nil false []]) := rfl
  rw [e]
  have hlen : (insertionSort (nodelist.reset list ++ [node.mk c w .nil .nil false []])).length
      = (nodelist.reset list ++ [node.mk c w .nil .nil false []]).length :=
    goSort.length_sort _
  rw [hlen] 
  rw [mergeLoop_tieFree S _ _ h.2]

theorem foldl_Append_tieFree (S : SortImpl) (apps : List (Int × Int)) (coder : HuffmanCoder)
    (h : buildTieFree coder apps = true) :
    apps.foldl (fun coder p => coder.Append S p.1 p.2) coder
      = apps.foldl (fun coder p => coder.Append goSort p.1 p.2) coder := by
  induction apps generalizing coder with
  | nil => rfl
  | cons p ps ih =>
    simp only [buildTieFree, Bool.and_eq_true] at h
    simp only [List.foldl_cons]
    have e : coder.Append S p.1 p.2 = coder.Append goSort p.1 p.2 := by
      simp only [HuffmanCoder.Append, Append_tieFree S _ _ _ h.1]
    rw [e]
    exact ih _ h.2

/-- When the insertion sort never meets two elements of equal weight during the
build, every implementation of `sort.Sort` builds the same coder. -/
theorem build_tieFree (S : SortImpl) (apps : List (Int × Int))
    (h : buildTieFree NewHuffmanCoder apps = true) : build S apps = build goSort apps :=
  foldl_Append_tieFree S apps NewHuffmanCoder h

/-! ## The textbook example (C6) -/

/-- C6.  After `Append('a',5)`, `Append('b',9)`, `Append('c',12)`, `Append('d',13)`,
`Append('e',16)`, `Append('f',45)` on a fresh coder, the code of `f` has length 1, the
codes of `c`, `d`, `e` have length 3 and the codes of `a`, `b` have length 4; `Encode` of
`"abcdef"` returns no error and `Decode` of its output returns `"abcdef"` and no error. -/
theorem textbook_example (S : SortImpl) :
    (getCode (build S [(97, 5), (98, 9), (99, 12), (100, 13), (101, 16), (102, 45)]).coder 102).length = 1 ∧
    (getCode (build S [(97, 5), (98, 9), (99, 12), (100, 13), (101, 16), (102, 45)]).coder 99).length = 3 ∧
    (getCode (build S [(97, 5), (98, 9), (99, 12), (100, 13), (101, 16), (102, 45)]).coder 100).length = 3 ∧
    (getCode (build S [(97, 5), (98, 9), (99, 12), (100, 13), (101, 16), (102, 45)]).coder 101).length = 3 ∧
    (getCode (build S [(97, 5), (98, 9), (99, 12), (100, 13), (101, 16), (102, 45)]).coder 97).length = 4 ∧
    (getCode (build S [(97, 5), (98, 9), (99, 12), (100, 13), (101, 16), (102, 45)]).coder 98).length = 4 ∧
    ((build S [(97, 5), (98, 9), (99, 12), (100, 13), (101, 16), (102, 45)]).Encode
      ['a', 'b', 'c', 'd', 'e', 'f']).2 = none ∧
    (build S [(97, 5), (98, 9), (99, 12), (100, 13), (101, 16), (102, 45)]).Decode
      ((build S [(97, 5), (98, 9), (99, 12), (100, 13), (101, 16), (102, 45)]).Encode
        ['a', 'b', 'c', 'd', 'e', 'f']).1 = (['a', 'b', 'c', 'd', 'e', 'f'], none) := by
  rw [build_tieFree S _ (by decide)]
  decide

/-! ## Depth lists of code trees -/


/-- A code tree with two or more symbol nodes has two symbol nodes at its greatest
depth `m`, and replacing them by one symbol node at depth `m - 1` gives the depth list
of a code tree again. -/
theorem Shape.collapse_aux {d : Nat} {D : List Nat} (h : Shape d D) :
    ∃ m, (∀ x ∈ D, x ≤ m) ∧ m ∈ D ∧
      (D = [d] ∨ (d < m ∧ ∃ D0 D1, D.Perm (m :: m :: D0) ∧ Shape d D1 ∧
        D1.Perm ((m - 1) :: D0))) := by
  induction h with
  | leaf d => exact ⟨d, by simp, by simp, Or.inl rfl⟩
  | inner d D1 D2 h1 h2 ih1 ih2 =>
    obtain ⟨m1, hmax1, hmem1, alt1⟩ := ih1
    obtain ⟨m2, hmax2, hmem2, alt2⟩ := ih2
    have hd1 : d + 1 ≤ m1 := by
      rcases alt1 with rfl | ⟨h, _⟩
      · simp at hmem1; omega
      · omega
    have hd2 : d + 1 ≤ m2 := by
      rcases alt2 with rfl | ⟨h, _⟩
      · simp at hmem2; omega
      · omega
    rcases Nat.le_total m2 m1 with hle | hle
    · -- the left subtree reaches the greatest depth
      have hmax : ∀ x ∈ D1 ++ D2, x ≤ m1 := by
        intro x hx
        rcases List.mem_append.1 hx with hx | hx
        · exact hmax1 x hx
        · exact le_trans (hmax2 x hx) hle
      refine ⟨m1, hmax, List.mem_append_left _ hmem1, Or.inr ⟨by omega, ?_⟩⟩
      rcases alt1 with rfl | ⟨_, D0, D1c, hp, hs, hpc⟩
      · -- the left subtree is a leaf, so the right one is a leaf too
        simp only [List.mem_singleton] at hmem1
        subst hmem1
        rcases alt2 with rfl | ⟨hlt, _⟩
        · exact ⟨[], [d], List.Perm.refl _, Shape.leaf d, by simp⟩
        · omega
      · refine ⟨D0 ++ D2, D1c ++ D2, ?_, Shape.inner d D1c D2 hs h2, ?_⟩
        · exact hp.append_right D2
        · exact hpc.append_right D2
    · have hmax : ∀ x ∈ D1 ++ D2, x ≤ m2 := by
        intro x hx
        rcases List.mem_append.1 hx with hx | hx
        · exact le_trans (hmax1 x hx) hle
        · exact hmax2 x hx
      refine ⟨m2, hmax, List.mem_append_right _ hmem2, Or.inr ⟨by omega, ?_⟩⟩
      rcases alt2 with rfl | ⟨_, D0, D2c, hp, hs, hpc⟩
      · simp only [List.mem_singleton] at hmem2
        subst hmem2
        rcases alt1 with rfl | ⟨hlt, _⟩
        · exact ⟨[], [d], List.Perm.refl _, Shape.leaf d, by simp⟩
        · omega
      · refine ⟨D1 ++ D0, D1 ++ D2c, ?_, Shape.inner d D1 D2c h1 hs, ?_⟩
        · refine (hp.append_left D1).trans ?_
          refine List.perm_middle.trans (List.Perm.cons _ ?_)
          exact List.perm_middle
        · exact (hpc.append_left D1).trans List.perm_middle

theorem Shape.collapse {d : Nat} {D : List Nat} (h : Shape d D) (h2 : 2 ≤ D.length) :
    ∃ m, (∀ x ∈ D, x ≤ m) ∧ d < m ∧ ∃ D0 D1, D.Perm (m :: m :: D0) ∧ Shape d D1 ∧
      D1.Perm ((m - 1) :: D0) := by
  obtain ⟨m, hmax, _, alt⟩ := h.collapse_aux
  rcases alt with rfl | ⟨hlt, hex⟩
  · simp at h2
  · exact ⟨m, hmax, hlt, hex⟩

/-! ## Weighted depth lists -/


theorem pcost_cons (p : Int × Nat) (ps : List (Int × Nat)) :
    pcost (p :: ps) = p.1 * (p.2 : Int) + pcost ps := by
  simp [pcost]

theorem pcost_perm {ps qs : List (Int × Nat)} (h : ps.Perm qs) : pcost ps = pcost qs :=
  (h.map _).sum_eq

theorem pcost_nonneg (ps : List (Int × Nat)) (h : ∀ p ∈ ps, 0 ≤ p.1) : 0 ≤ pcost ps := by
  induction ps with
  | nil => simp [pcost]
  | cons p t ih =>
    rw [pcost_cons]
    have h1 : 0 ≤ p.1 := h p (List.mem_cons_self _ _)
    have h2 : (0 : Int) ≤ (p.2 : Int) := Int.ofNat_nonneg _
    have h3 := ih (fun q hq => h q (List.mem_cons_of_mem _ hq))
    have h4 := mul_nonneg h1 h2
    omega

theorem exists_perm_cons {α : Type} {a : α} {l : List α} (h : a ∈ l) :
    ∃ t, l.Perm (a :: t) := by
  obtain ⟨s, t, rfl⟩ := List.append_of_mem h
  exact ⟨s ++ t, List.perm_middle⟩

/-- Exchange: the least weight can be moved to a pair of greatest depth without
raising the weighted length. -/
theorem swap_least (ps : List (Int × Nat)) (m : Nat) (a : Int)
    (hmax : ∀ p ∈ ps, p.2 ≤ m) (hmin : ∀ p ∈ ps, a ≤ p.1)
    (hm : m ∈ ps.map Prod.snd) (ha : a ∈ ps.map Prod.fst) :
    ∃ rest : List (Int × Nat), (a :: rest.map Prod.fst).Perm (ps.map Prod.fst) ∧
      (m :: rest.map Prod.snd).Perm (ps.map Prod.snd) ∧
      pcost ((a, m) :: rest) ≤ pcost ps := by
  obtain ⟨⟨a1, d⟩, had, rfl⟩ := List.mem_map.1 ha
  obtain ⟨⟨x, m1⟩, hxm, rfl⟩ := List.mem_map.1 hm
  simp only at *
  by_cases hdm : d = m1
  · subst hdm
    obtain ⟨t, hp⟩ := exists_perm_cons had
    refine ⟨t, ?_, ?_, ?_⟩
    · simpa using (hp.map Prod.fst).symm
    · simpa using (hp.map Prod.snd).symm
    · exact le_of_eq (pcost_perm hp.symm)
  · obtain ⟨t1, hp1⟩ := exists_perm_cons had
    have hne : (x, m1) ≠ (a1, d) := fun e => hdm (congrArg Prod.snd e).symm
    have hx1 : (x, m1) ∈ t1 := by
      rcases List.mem_cons.1 (hp1.subset hxm) with e | e
      · exact absurd e hne
      · exact e
    obtain ⟨t2, hp2⟩ := exists_perm_cons hx1
    have hp : ps.Perm ((a1, d) :: (x, m1) :: t2) := hp1.trans (List.Perm.cons _ hp2)
    refine ⟨(x, d) :: t2, ?_, ?_, ?_⟩
    · simpa using (hp.map Prod.fst).symm
    · refine List.Perm.trans ?_ (hp.map Prod.snd).symm
      simpa using List.Perm.swap d m1 (t2.map Prod.snd)
    · rw [pcost_perm hp]
      simp only [pcost_cons]
      have h1 : a1 ≤ x := hmin _ hxm
      have h2 : d ≤ m1 := hmax _ had
      have h3 : (0 : Int) ≤ (x - a1) * ((m1 : Int) - (d : Int)) :=
        mul_nonneg (by omega) (by omega)
      nlinarith [h3]

/-! ## Weighted path length of a tree -/


theorem pcost_append (ps qs : List (Int × Nat)) : pcost (ps ++ qs) = pcost ps + pcost qs := by
  simp [pcost]

theorem node.cost_eq_pcost (t : node) (d : Nat) : t.cost d = pcost (t.depths d) := by
  induction t generalizing d with
  | nil => rfl
  | mk c w l r v h ihl ihr =>
    simp only [node.cost, node.depths, pcost_append, ihl, ihr]
    split <;> simp [pcost]

theorem node.depths_fst (t : node) (d : Nat) :
    (t.depths d).map Prod.fst = t.leaves.map Prod.snd := by
  induction t generalizing d with
  | nil => rfl
  | mk c w l r v h ihl ihr =>
    simp only [node.depths, node.leaves, List.map_append, ihl, ihr]
    split <;> rfl

theorem node.Proper.shape {t : node} (ht : t.Proper) (d : Nat) :
    Shape d ((t.depths d).map Prod.snd) := by
  induction t generalizing d with
  | nil => exact absurd ht id
  | mk c w l r v h ihl ihr =>
    rcases ht with ⟨h1, rfl, rfl⟩ | ⟨rfl, hl, hr⟩
    · simpa [node.depths, h1] using Shape.leaf d
    · simpa [node.depths] using Shape.inner d _ _ (ihl hl (d + 1)) (ihr hr (d + 1))

theorem node.total_mk (c w : Int) (l r : node) (v : Bool) (h : List Char) :
    (node.mk c w l r v h).total = (if c > 0 then w else 0) + l.total + r.total := by
  simp only [node.total, node.leaves, List.map_append, List.sum_append]
  split <;> simp

theorem node.cost_succ (t : node) (d : Nat) : t.cost (d + 1) = t.cost d + t.total := by
  induction t generalizing d with
  | nil => simp [node.cost, node.total, node.leaves]
  | mk c w l r v h ihl ihr =>
    rw [node.total_mk]
    simp only [node.cost]
    rw [ihl (d + 1), ihr (d + 1)]
    split
    · push_cast; ring
    · ring

theorem node.huffmanCode_cost (t : node) (p : List Char) (d : Nat) :
    (t.huffmanCode p).cost d = t.cost d := by
  induction t generalizing p d with
  | nil => rfl
  | mk c w l r v h ihl ihr => simp only [node.huffmanCode, node.cost, ihl, ihr]

theorem node.huffmanCode_codeCost (t : node) (p : List Char) :
    (t.huffmanCode p).codeCost = t.cost p.length := by
  induction t generalizing p with
  | nil => rfl
  | mk c w l r v h ihl ihr =>
    simp only [node.huffmanCode, node.codeCost, node.cost, ihl, ihr, List.length_append,
      List.length_singleton]
    split <;> rfl

theorem wrapInt_eq (x : Int) (h0 : -2 ^ 63 ≤ x) (h1 : x < 2 ^ 63) : wrapInt x = x := by
  unfold wrapInt
  rw [Int.emod_eq_of_lt (by omega) (by omega)]
  omega

theorem freshLeaf_cost (p : Int × Int) : (freshLeaf p).cost 0 = 0 := by
  simp [freshLeaf, node.cost]

theorem freshLeaf_weight (p : Int × Int) : (freshLeaf p).weight = p.2 := rfl

theorem node.total_nonneg (t : node) (h : ∀ p ∈ t.leaves, 0 ≤ p.2) : 0 ≤ t.total := by
  unfold node.total
  apply List.sum_nonneg
  intro x hx
  obtain ⟨p, hp, rfl⟩ := List.mem_map.1 hx
  exact h p hp

/-! ## The merge loop builds a tree of least weighted path length -/


theorem node.weight_mk (c w : Int) (l r : node) (v : Bool) (h : List Char) :
    (node.mk c w l r v h).weight = w := rfl

theorem Ready.of_perm {F G : nodelist} (h : Ready F) (p : G.Perm F) : Ready G :=
  ⟨h.1.perm p, fun t ht => h.2.1 t (p.subset ht), fun t ht => h.2.2.1 t (p.subset ht),
    by rw [(p.map node.total).sum_eq]; exact h.2.2.2⟩

theorem Ready.roots_nonneg {F : nodelist} (h : Ready F) : ∀ t ∈ F, 0 ≤ t.total :=
  fun t ht => node.total_nonneg t (h.2.2.1 t ht)

/-- The node made by `nextStep` from the first two elements of a ready forest carries
their exact sum, and the forest stays ready. -/
theorem Ready.merge {a b : node} {rest : nodelist} (h : Ready (a :: b :: rest)) :
    wrapInt (a.weight + b.weight) = a.weight + b.weight ∧
      Ready (rest ++ [.mk 0 (wrapInt (a.weight + b.weight)) a b false []]) := by
  obtain ⟨hF, hW, hN, hS⟩ := h
  have ha := hW a (by simp)
  have hb := hW b (by simp)
  have ha0 := node.total_nonneg a (hN a (by simp))
  have hb0 := node.total_nonneg b (hN b (by simp))
  have hrest : 0 ≤ (rest.map node.total).sum := by
    apply List.sum_nonneg
    intro x hx
    obtain ⟨t, ht, rfl⟩ := List.mem_map.1 hx
    exact node.total_nonneg t (hN t (by simp [ht]))
  simp only [List.map_cons, List.sum_cons] at hS
  have hw : wrapInt (a.weight + b.weight) = a.weight + b.weight :=
    wrapInt_eq _ (by omega) (by omega)
  refine ⟨hw, ?_, ?_, ?_, ?_⟩
  · intro t ht
    rcases List.mem_append.1 ht with ht | ht
    · exact hF t (by simp [ht])
    · simp only [List.mem_singleton] at ht
      subst ht
      exact Or.inr ⟨rfl, hF a (by simp), hF b (by simp)⟩
  · intro t ht
    rcases List.mem_append.1 ht with ht | ht
    · exact hW t (by simp [ht])
    · simp only [List.mem_singleton] at ht
      subst ht
      rw [node.total_mk]
      rw [node.weight_mk, hw, ha, hb]
      simp
  · intro t ht
    rcases List.mem_append.1 ht with ht | ht
    · exact hN t (by simp [ht])
    · simp only [List.mem_singleton] at ht
      subst ht
      intro p hp
      simp only [node.leaves, gt_iff_lt, lt_self_iff_false, if_false, List.nil_append,
        List.mem_append] at hp
      rcases hp with hp | hp
      · exact hN a (by simp) p hp
      · exact hN b (by simp) p hp
  · simp only [List.map_append, List.map_cons, List.map_nil, List.sum_append, List.sum_cons,
      List.sum_nil, node.total_mk]
    simp only [gt_iff_lt, lt_self_iff_false, if_false]
    omega

theorem nodelist.mergeLoop_optimal (S : SortImpl) (n : Nat) :
    ∀ (fuel : Nat) (F : nodelist), F.length = n + 1 → n + 1 ≤ fuel → Ready F →
      F.Pairwise (fun a b => ¬ nodelist.Less b a) →
      ∀ ps : List (Int × Nat), (ps.map Prod.fst).Perm (F.map node.weight) →
        (∃ D, Shape 0 D ∧ D.Perm (ps.map Prod.snd)) →
        ∃ root, nodelist.mergeLoop S fuel F = [root] ∧
          root.cost 0 ≤ (F.map (node.cost 0)).sum + pcost ps := by
  induction n with
  | zero =>
    intro fuel F hlen hfuel hR _ ps hfst _
    match F, hlen, fuel, hfuel with
    | [a], _, k + 1, _ =>
      refine ⟨a, rfl, ?_⟩
      have h0 : 0 ≤ pcost ps := by
        apply pcost_nonneg
        intro p hp
        have : p.1 ∈ [a].map node.weight := hfst.subset (List.mem_map_of_mem _ hp)
        simp only [List.map_cons, List.map_nil, List.mem_singleton] at this
        rw [this, hR.2.1 a (by simp)]
        exact hR.roots_nonneg a (by simp)
      simp only [List.map_cons, List.map_nil, List.sum_cons, List.sum_nil]
      omega
  | succ n ih =>
    intro fuel F hlen hfuel hR hsorted ps hfst hshape
    match F, hlen, fuel, hfuel with
    | a :: b :: rest, hlen, k + 1, hfuel =>
      obtain ⟨D, hD, hDp⟩ := hshape
      have hpslen : ps.length = n + 2 := by
        have := hfst.length_eq
        simp only [List.length_map] at this
        rw [this]; exact hlen
      have hDlen : 2 ≤ D.length := by
        have := hDp.length_eq
        simp only [List.length_map] at this
        omega
      obtain ⟨m, hmax, hm0, D0, D1, hDm, hD1, hD1p⟩ := hD.collapse hDlen
      -- the order of the forest
      rw [List.pairwise_cons, List.pairwise_cons] at hsorted
      have hab : a.weight ≤ b.weight := not_lt.1 (hsorted.1 b (by simp))
      have hbrest : ∀ t ∈ rest, b.weight ≤ t.weight :=
        fun t ht => not_lt.1 (hsorted.2.1 t ht)
      -- first exchange
      have hmax1 : ∀ p ∈ ps, p.2 ≤ m :=
        fun p hp => hmax _ (hDp.symm.subset (List.mem_map_of_mem _ hp))
      have hmin1 : ∀ p ∈ ps, a.weight ≤ p.1 := by
        intro p hp
        have : p.1 ∈ (a :: b :: rest).map node.weight :=
          hfst.subset (List.mem_map_of_mem _ hp)
        simp only [List.map_cons, List.mem_cons, List.mem_map] at this
        rcases this with e | e | ⟨t, ht, e⟩
        · omega
        · omega
        · have := hbrest t ht
          omega
      have hm1 : m ∈ ps.map Prod.snd := hDp.subset (hDm.symm.subset (by simp))
      have ha1 : a.weight ∈ ps.map Prod.fst := hfst.symm.subset (by simp)
      obtain ⟨rest1, h1f, h1s, h1c⟩ := swap_least ps m a.weight hmax1 hmin1 hm1 ha1
      have h1f' : (rest1.map Prod.fst).Perm (b.weight :: rest.map node.weight) :=
        List.Perm.cons_inv (h1f.trans hfst)
      have h1s' : (rest1.map Prod.snd).Perm (m :: D0) :=
        List.Perm.cons_inv (h1s.trans (hDp.symm.trans hDm))
      -- second exchange
      have hmax2 : ∀ p ∈ rest1, p.2 ≤ m := by
        intro p hp
        have : p.2 ∈ m :: rest1.map Prod.snd :=
          List.mem_cons_of_mem _ (List.mem_map_of_mem _ hp)
        exact hmax _ (hDp.symm.subset (h1s.subset this))
      have hmin2 : ∀ p ∈ rest1, b.weight ≤ p.1 := by
        intro p hp
        have : p.1 ∈ b.weight :: rest.map node.weight :=
          h1f'.subset (List.mem_map_of_mem _ hp)
        simp only [List.mem_cons, List.mem_map] at this
        rcases this with e | ⟨t, ht, e⟩
        · omega
        · have := hbrest t ht
          omega
      have hm2 : m ∈ rest1.map Prod.snd := h1s'.symm.subset (by simp)
      have ha2 : b.weight ∈ rest1.map Prod.fst := h1f'.symm.subset (by simp)
      obtain ⟨rest2, h2f, h2s, h2c⟩ := swap_least rest1 m b.weight hmax2 hmin2 hm2 ha2
      have h2f' : (rest2.map Prod.fst).Perm (rest.map node.weight) :=
        List.Perm.cons_inv (h2f.trans h1f')
      have h2s' : (rest2.map Prod.snd).Perm D0 := List.Perm.cons_inv (h2s.trans h1s')
      -- the merged forest
      obtain ⟨hw, hR1⟩ := hR.merge
      have hperm := S.perm (rest ++ [node.mk 0 (wrapInt (a.weight + b.weight)) a b false []])
      have hfst2 : (((a.weight + b.weight, m - 1) :: rest2).map Prod.fst).Perm
          ((S.sort (rest ++ [node.mk 0 (wrapInt (a.weight + b.weight)) a b false []])).map
            node.weight) := by
        refine List.Perm.trans ?_ (hperm.map node.weight).symm
        simp only [List.map_cons, List.map_append, List.map_nil, node.weight_mk, hw]
        exact (List.Perm.cons _ h2f').trans (List.perm_append_singleton _ _).symm
      have hshape2 : ∃ D, Shape 0 D ∧
          D.Perm (((a.weight + b.weight, m - 1) :: rest2).map Prod.snd) :=
        ⟨D1, hD1, hD1p.trans (List.Perm.cons _ h2s'.symm)⟩
      obtain ⟨root, hroot, hcost⟩ := ih k _ (by rw [S.length_sort]; simp at hlen ⊢; omega)
        (by omega) (hR1.of_perm hperm) (S.sorted _) _ hfst2 hshape2
      refine ⟨root, by simpa [nodelist.mergeLoop, nodelist.nextStep] using hroot, ?_⟩
      -- the arithmetic
      have hsum : ((S.sort (rest ++ [node.mk 0 (wrapInt (a.weight + b.weight)) a b false []])).map
          (node.cost 0)).sum
          = (rest.map (node.cost 0)).sum + (a.cost 0 + a.total + (b.cost 0 + b.total)) := by
        rw [(hperm.map (node.cost 0)).sum_eq]
        simp only [List.map_append, List.map_cons, List.map_nil, List.sum_append,
          List.sum_cons, List.sum_nil, node.cost, gt_iff_lt, lt_self_iff_false, if_false]
        rw [node.cost_succ, node.cost_succ]
        ring
      have hta := hR.2.1 a (by simp)
      have htb := hR.2.1 b (by simp)
      rw [hsum] at hcost
      simp only [pcost_cons] at hcost h1c h2c
      simp only [List.map_cons, List.sum_cons]
      have hm1' : ((m - 1 : Nat) : Int) = (m : Int) - 1 := by omega
      rw [hm1'] at hcost
      nlinarith [hcost, h1c, h2c]

/-! ## Optimality of the built tree (C5) -/


theorem node.cost_of_no_leaves (t : node) (h : t.leaves = []) (d : Nat) : t.cost d = 0 := by
  rw [node.cost_eq_pcost]
  have h1 := node.depths_fst t d
  rw [h] at h1
  simp only [List.map_nil, List.map_eq_nil_iff] at h1
  rw [h1]
  rfl

/-- A binary code tree is never better than some code tree without one-child nodes
that carries the same weights. -/
theorem node.CodeTree.full (t : node) (ht : t.CodeTree) (hw : ∀ p ∈ t.leaves, 0 ≤ p.2)
    (hne : t.leaves ≠ []) :
    ∀ d, ∃ ps : List (Int × Nat), ps.map Prod.fst = t.leaves.map Prod.snd ∧
      Shape d (ps.map Prod.snd) ∧ pcost ps ≤ t.cost d := by
  induction t with
  | nil => exact absurd rfl hne
  | mk c w l r v h ihl ihr =>
    intro d
    obtain ⟨hc, hl, hr⟩ := ht
    by_cases hpos : 0 < c
    · obtain ⟨rfl, rfl⟩ := hc hpos
      refine ⟨[(w, d)], by simp [node.leaves, hpos], by simpa using Shape.leaf d, ?_⟩
      simp [pcost, node.cost, hpos]
    · have hleaves : (node.mk c w l r v h).leaves = l.leaves ++ r.leaves := by
        simp [node.leaves, hpos]
      have hcost : (node.mk c w l r v h).cost d = l.cost (d + 1) + r.cost (d + 1) := by
        simp [node.cost, hpos]
      rw [hleaves] at hw hne
      rw [hleaves, hcost]
      have hwl : ∀ p ∈ l.leaves, 0 ≤ p.2 := fun p hp => hw p (List.mem_append_left _ hp)
      have hwr : ∀ p ∈ r.leaves, 0 ≤ p.2 := fun p hp => hw p (List.mem_append_right _ hp)
      by_cases hln : l.leaves = []
      · have hrn : r.leaves ≠ [] := by
          intro e; rw [hln, e] at hne; exact hne rfl
        obtain ⟨ps, h1, h2, h3⟩ := ihr hr hwr hrn d
        refine ⟨ps, by rw [h1, hln]; rfl, h2, ?_⟩
        rw [node.cost_of_no_leaves l hln, node.cost_succ]
        have := node.total_nonneg r hwr
        omega
      · by_cases hrn : r.leaves = []
        · obtain ⟨ps, h1, h2, h3⟩ := ihl hl hwl hln d
          refine ⟨ps, by rw [h1, hrn]; simp, h2, ?_⟩
          rw [node.cost_of_no_leaves r hrn, node.cost_succ]
          have := node.total_nonneg l hwl
          omega
        · obtain ⟨ps1, h1, h2, h3⟩ := ihl hl hwl hln (d + 1)
          obtain ⟨ps2, h4, h5, h6⟩ := ihr hr hwr hrn (d + 1)
          refine ⟨ps1 ++ ps2, by simp [h1, h4], ?_, ?_⟩
          · rw [List.map_append]
            exact Shape.inner d _ _ h2 h5
          · rw [pcost_append]
            omega

theorem ready_fresh (S : SortImpl) (L : List (Int × Int)) (hpos : ∀ p ∈ L, 0 < p.1)
    (hw : ∀ p ∈ L, 0 ≤ p.2) (hsum : (L.map Prod.snd).sum < 2 ^ 63) :
    Ready (S.sort (L.map freshLeaf)) := by
  refine Ready.of_perm ⟨?_, ?_, ?_, ?_⟩ (S.perm _)
  · intro t ht
    obtain ⟨p, hp, rfl⟩ := List.mem_map.1 ht
    exact freshLeaf_proper p (hpos p hp)
  · intro t ht
    obtain ⟨p, hp, rfl⟩ := List.mem_map.1 ht
    simp [node.total, freshLeaf_leaves p (hpos p hp), freshLeaf_weight]
  · intro t ht q hq
    obtain ⟨p, hp, rfl⟩ := List.mem_map.1 ht
    rw [freshLeaf_leaves p (hpos p hp), List.mem_singleton] at hq
    rw [hq]
    exact hw p hp
  · have e : (L.map freshLeaf).map node.total = L.map Prod.snd := by
      rw [List.map_map]
      apply List.map_congr_left
      intro p hp
      simp [node.total, freshLeaf_leaves p (hpos p hp)]
    rw [e]
    exact hsum

/-- The rebuild of `nodelist.Append` from the fresh leaves, when the weights are not
negative and their sum is below `2^63`: the tree built is at least as good as every
assignment of the weights to the depths of a code tree. -/
theorem nodelist.huffmanCode_optimal (S : SortImpl) (L : List (Int × Int)) (hne : L ≠ [])
    (hpos : ∀ p ∈ L, 0 < p.1) (hw : ∀ p ∈ L, 0 ≤ p.2)
    (hsum : (L.map Prod.snd).sum < 2 ^ 63) :
    ∃ root, nodelist.huffmanCode S (S.sort (L.map freshLeaf)) = [root] ∧
      root.codeCost = root.cost 0 ∧
      ∀ ps : List (Int × Nat), (ps.map Prod.fst).Perm (L.map Prod.snd) →
        (∃ D, Shape 0 D ∧ D.Perm (ps.map Prod.snd)) → root.cost 0 ≤ pcost ps := by
  have hlen : (S.sort (L.map freshLeaf)).length = (L.length - 1) + 1 := by
    have := List.length_pos.2 hne
    rw [S.length_sort, List.length_map]; omega
  have hR := ready_fresh S L hpos hw hsum
  have hweights : ((S.sort (L.map freshLeaf)).map node.weight).Perm (L.map Prod.snd) := by
    refine ((S.perm _).map node.weight).trans ?_
    rw [List.map_map]
    exact List.Perm.of_eq (List.map_congr_left (fun p _ => rfl))
  have hcost0 : ((S.sort (L.map freshLeaf)).map (node.cost 0)).sum = 0 := by
    rw [((S.perm _).map (node.cost 0)).sum_eq, List.map_map]
    apply List.sum_eq_zero
    intro x hx
    obtain ⟨p, _, rfl⟩ := List.mem_map.1 hx
    exact freshLeaf_cost p
  -- the loop ends with one tree
  obtain ⟨root, hroot, _⟩ :=
    nodelist.mergeLoop_forest S _ _ _ hlen (Nat.le_of_eq hlen.symm) hR.1
  unfold nodelist.huffmanCode
  rw [hroot]
  refine ⟨root.huffmanCode [], rfl, ?_, ?_⟩
  · rw [node.huffmanCode_codeCost, node.huffmanCode_cost]
    rfl
  · intro ps hfst hshape
    obtain ⟨root1, hroot1, hle⟩ :=
      nodelist.mergeLoop_optimal S _ _ _ hlen (Nat.le_of_eq hlen.symm) hR (S.sorted _) ps
        (hfst.trans hweights.symm) hshape
    rw [hroot] at hroot1
    cases hroot1
    rw [node.huffmanCode_cost, hcost0] at *
    omega

/-- C5, as the code has it.  After one or more `Append` calls with positive symbols
and non-negative weights whose sum is below `2^63` (so that no weight sum wraps), the
forest is one tree, its weighted code length, the sum over the symbol nodes of weight
times length of the stored code, is its weighted path length, and that is minimal: it
is at most the weighted path length of every binary code tree whose symbol nodes carry
the same weights.  The symbols need not be distinct. -/
theorem huffman_optimal (S : SortImpl) (apps : List (Int × Int)) (hne : apps ≠ [])
    (hpos : ∀ p ∈ apps, 0 < p.1) (hw : ∀ p ∈ apps, 0 ≤ p.2)
    (hsum : (apps.map Prod.snd).sum < 2 ^ 63) :
    ∃ root, (build S apps).nodelist = [root] ∧ root.codeCost = root.cost 0 ∧
      ∀ t : node, t.CodeTree → (t.leaves.map Prod.snd).Perm (apps.map Prod.snd) →
        root.cost 0 ≤ t.cost 0 := by
  induction apps using List.reverseRecOn with
  | nil => exact absurd rfl hne
  | append_singleton init p _ =>
    have hperm : ((build S init).nodelist.flatMap node.leaves ++ [p]).Perm (init ++ [p]) :=
      (build_forest S init (fun q hq => hpos q (by simp [hq]))).append_right _
    have hL : (build S init).nodelist.flatMap node.leaves ++ [p] ≠ [] := by simp
    obtain ⟨root, h1, h2, h3⟩ := nodelist.huffmanCode_optimal S _ hL
      (fun q hq => hpos q (hperm.subset hq)) (fun q hq => hw q (hperm.subset hq))
      (by rw [(hperm.map Prod.snd).sum_eq]; exact hsum)
    have hApp : nodelist.Append S (build S init).nodelist p.1 p.2 = [root] := by
      rw [← h1]
      unfold nodelist.Append
      rw [nodelist.reset_fresh]
      simp [freshLeaf]
    refine ⟨root, by rw [build_snoc]; simp [HuffmanCoder.Append, hApp], h2, ?_⟩
    intro t ht hleaves
    have hwt : ∀ q ∈ t.leaves, 0 ≤ q.2 := by
      intro q hq
      obtain ⟨q1, hq1, e⟩ := List.mem_map.1 (hleaves.subset (List.mem_map_of_mem Prod.snd hq))
      rw [← e]
      exact hw q1 hq1
    have htne : t.leaves ≠ [] := by
      intro e
      have := hleaves.length_eq
      rw [e] at this
      simp at this
    obtain ⟨ps, hp1, hp2, hp3⟩ := ht.full t hwt htne 0
    refine le_trans (h3 ps ?_ ⟨_, hp2, List.Perm.refl _⟩) hp3
    rw [hp1]
    exact hleaves.trans (hperm.map Prod.snd).symm

theorem huffman_optimal_witness :
    ∃ root, (build goSort [(97, 5), (98, 9), (99, 12), (98, 0)]).nodelist = [root] ∧
      root.codeCost = root.cost 0 ∧
      ∀ t : node, t.CodeTree →
        (t.leaves.map Prod.snd).Perm ([((97 : Int), (5 : Int)), (98, 9), (99, 12), (98, 0)].map Prod.snd) →
        root.cost 0 ≤ t.cost 0 :=
  huffman_optimal goSort [(97, 5), (98, 9), (99, 12), (98, 0)] (by decide) (by decide)
    (by decide) (by decide)

/-- C5 as stated fails.  `Append('a', 2^62)`, `Append('b', 2^62)`, `Append('c', 2^62)`,
`Append('d', 2^62)` have distinct positive symbols and non-negative weights, each a Go
`int`.  The first merge forms `2^62 + 2^62`, which wraps to `-2^63` and sorts first, so
the tree built is a chain with code lengths 3, 3, 2, 1 and weighted length `9 * 2^62`;
the balanced tree over the same weights has weighted length `8 * 2^62`. -/
theorem optimal_overflow_counterexample :
    (∀ p ∈ overflowApps, 0 < p.1 ∧ 0 ≤ p.2 ∧ p.2 < 2 ^ 63) ∧
    (overflowApps.map Prod.fst).Nodup ∧
    balancedTree.Proper ∧ balancedTree.CodeTree ∧
    (balancedTree.leaves.map Prod.snd).Perm (overflowApps.map Prod.snd) ∧
    ∃ root, (build goSort overflowApps).nodelist = [root] ∧
      root.codeCost = 9 * 2 ^ 62 ∧ root.cost 0 = 9 * 2 ^ 62 ∧
      balancedTree.cost 0 = 8 * 2 ^ 62 ∧ balancedTree.cost 0 < root.cost 0 := by
  refine ⟨by decide, by decide, ?_, ?_, by decide, ?_⟩
  · simp [balancedTree, node.Proper]
  · simp [balancedTree, node.CodeTree]
  · exact ⟨(build goSort overflowApps).nodelist.headD .nil, by decide, by decide, by decide,
      by decide, by decide⟩

/-! ## Trailing bits (C11) and the decode-failed branch (C12) -/

/-- Walking a proper initial segment of the path of a symbol node, from a symbol-less
node of a code tree, emits nothing and ends without an error. -/
theorem decodeLoop_midway (root : node) (cur : node) (hcur : cur.Proper) (h0 : cur.char = 0)
    (x : Int) (q t : List Char) (hq : (x, q) ∈ cur.paths) (ht : t <+: q) (hne : t ≠ q)
    (out : List Char) : decodeLoop root cur t out = (out, none) := by
  induction cur generalizing q t with
  | nil => exact absurd hcur id
  | mk c w l r v h ihl ihr =>
    simp only [node.char] at h0
    subst h0
    rcases hcur with ⟨h1, _, _⟩ | ⟨_, hl, hr⟩
    · exact absurd h1 (lt_irrefl _)
    cases t with
    | nil => exact decodeLoop_nil _ _ _
    | cons b t1 =>
      rw [node.paths_inner] at hq
      simp only [List.mem_append, List.mem_map, Prod.mk.injEq] at hq
      rcases hq with ⟨p, hp, rfl, rfl⟩ | ⟨p, hp, rfl, rfl⟩
      · obtain ⟨rfl, ht1⟩ := List.cons_prefix_cons.1 ht
        have hne1 : t1 ≠ p.2 := fun e => hne (by rw [e])
        rw [decodeLoop_bit root w l r v h '0' (Or.inl rfl) _ _ hl hr]
        simp only [if_true]
        by_cases hc : 0 < l.char
        · rw [hl.paths_of_pos hc] at hp
          simp only [List.mem_singleton] at hp
          subst hp
          exact absurd (List.prefix_nil.1 ht1) hne1
        · rw [if_neg hc]
          exact ihl hl (le_antisymm (not_lt.1 hc) hl.char_nonneg) p.2 t1 hp ht1 hne1
      · obtain ⟨rfl, ht1⟩ := List.cons_prefix_cons.1 ht
        have hne1 : t1 ≠ p.2 := fun e => hne (by rw [e])
        rw [decodeLoop_bit root w l r v h '1' (Or.inr rfl) _ _ hl hr]
        have h10 : ¬ ('1' = '0') := by decide
        simp only [h10, if_false]
        by_cases hc : 0 < r.char
        · rw [hr.paths_of_pos hc] at hp
          simp only [List.mem_singleton] at hp
          subst hp
          exact absurd (List.prefix_nil.1 ht1) hne1
        · rw [if_neg hc]
          exact ihr hr (le_antisymm (not_lt.1 hc) hr.char_nonneg) p.2 t1 hp ht1 hne1

/-- C11.  On a coder built by two or more `Append` calls with positive symbols, for
every text `s` of appended symbols and every non-empty bit string `t` that is a proper
initial segment of the code stored in some symbol node of the tree, `Decode` of
`Encode(s)` followed by `t` returns exactly `s` and no error. -/
theorem trailing_bits_dropped (S : SortImpl) (apps : List (Int × Int)) (s t : List Char)
    (h2 : 2 ≤ apps.length) (hpos : ∀ p ∈ apps, 0 < p.1)
    (hs : ∀ ch ∈ s, runeOf ch ∈ apps.map Prod.fst) (htne : t ≠ [])
    (ht : ∃ root p, (build S apps).nodelist = [root] ∧ p ∈ root.codes ∧ t <+: p.2 ∧
      t ≠ p.2) :
    (build S apps).Decode (((build S apps).Encode s).1 ++ t) = (s, none) := by
  obtain ⟨root, h1, hP, hc0, hin, _⟩ := build_two S apps h2 hpos
  obtain ⟨root1, p, h1', hp, hpre, hpne⟩ := ht
  have hroot : root1 = root := by
    rw [h1] at h1'
    exact (List.cons.inj h1').1.symm
  subst hroot
  obtain ⟨r2, hr2, _, hcodes, _, _⟩ := build_spec S apps
    (by intro e; rw [e] at h2; simp at h2) hpos
  have hcodes1 : root1.codes = root1.paths := by
    have e : r2 = root1 := by
      rw [h1] at hr2
      exact (List.cons.inj hr2).1.symm
    rw [← e]
    exact hcodes
  rw [hcodes1] at hp
  have hs1 : ∀ ch ∈ s, getCode (build S apps).coder (runeOf ch) ≠ [] :=
    fun ch hch => (hin _ (hs ch hch)).2
  have hs2 : ∀ ch ∈ s,
      (runeOf ch, getCode (build S apps).coder (runeOf ch)) ∈ root1.paths :=
    fun ch hch => (hin _ (hs ch hch)).1
  have henc : ((build S apps).Encode s).1 = codesOf (build S apps).coder s := by
    simp [HuffmanCoder.Encode, encodeLoop_ok _ s hs1]
  rw [henc]
  have hlen : (codesOf (build S apps).coder s ++ t).length ≠ 0 := by
    intro e
    have := List.length_eq_zero.1 e
    simp only [List.append_eq_nil] at this
    exact htne this.2
  have hwalk := decodeLoop_codes root1 hP hc0 _ s hs2 t []
  rw [decodeLoop_midway root1 root1 hP hc0 p.1 p.2 t hp hpre hpne] at hwalk
  simp only [List.nil_append] at hwalk
  unfold HuffmanCoder.Decode
  rw [h1]
  simp only [nodelist.Decode]
  rw [if_neg hlen, hwalk]

theorem trailing_bits_dropped_witness :
    (build goSort [(97, 1), (98, 2), (99, 4)]).Decode
      (((build goSort [(97, 1), (98, 2), (99, 4)]).Encode ['c', 'a', 'b']).1 ++ ['0'])
      = (['c', 'a', 'b'], none) :=
  trailing_bits_dropped goSort [(97, 1), (98, 2), (99, 4)] ['c', 'a', 'b'] ['0'] (by decide)
    (by decide) (by decide) (by decide)
    ⟨(build goSort [(97, 1), (98, 2), (99, 4)]).nodelist.headD .nil, (97, ['0', '0']),
      by decide, by decide, by decide, by decide⟩

/-- C12.  On a forest built by two or more `Append` calls with positive symbols,
`Decode` of a non-empty input made of `'0'` and `'1'` only returns no error: no step of
the walk lands on an absent child, so the decode-failed branch is not taken. -/
theorem decode_bits_no_error (S : SortImpl) (apps : List (Int × Int)) (input : List Char)
    (h2 : 2 ≤ apps.length) (hpos : ∀ p ∈ apps, 0 < p.1) (hne : input ≠ [])
    (hbits : ∀ b ∈ input, b = '0' ∨ b = '1') :
    ((build S apps).Decode input).2 = none := by
  obtain ⟨root, h1, hP, hc0, _, _⟩ := build_two S apps h2 hpos
  obtain ⟨cur1, out1, _, _, h3⟩ := decodeLoop_bits root hP hc0 input hbits root [] hP hc0
  have e := h3 []
  rw [List.append_nil, decodeLoop_nil] at e
  have hlen : input.length ≠ 0 := fun h => hne (List.length_eq_zero.1 h)
  simp [HuffmanCoder.Decode, nodelist.Decode, h1, hlen, e]

theorem decode_bits_no_error_witness :
    ((build goSort [(97, 1), (98, 2), (99, 4)]).Decode ['0', '1', '1', '0']).2 = none :=
  decode_bits_no_error goSort [(97, 1), (98, 2), (99, 4)] ['0', '1', '1', '0'] (by decide)
    (by decide) (by decide) (by decide)

/-! ## Rebuild on `Append` (C16), `Clear` (C19) and symbols that are not positive (C20) -/


/-- C16.  On a fresh coder, after `Append('a',1)` and `Append('b',2)` the codes are
`a = "0"` and `b = "1"`, with every implementation of `sort.Sort`.  After a further
`Append('c',1)`, with the insertion sort that `sort.Sort` runs on a slice of three
elements, the tree has exactly the three leaves `b`, `a`, `c` and the codes are
`a = "10"`, `c = "11"`, `b = "0"`. -/
theorem rebuild_example (S : SortImpl) :
    (build S [(97, 1), (98, 2)]).coder 97 = some ['0'] ∧
    (build S [(97, 1), (98, 2)]).coder 98 = some ['1'] ∧
    (build goSort [(97, 1), (98, 2), (99, 1)]).coder 97 = some ['1', '0'] ∧
    (build goSort [(97, 1), (98, 2), (99, 1)]).coder 99 = some ['1', '1'] ∧
    (build goSort [(97, 1), (98, 2), (99, 1)]).coder 98 = some ['0'] ∧
    (build goSort [(97, 1), (98, 2), (99, 1)]).nodelist.map node.leaves
      = [[(98, 2), (97, 1), (99, 1)]] := by
  rw [build_tieFree S _ (by decide)]
  decide

theorem sort_nil (S : SortImpl) : S.sort [] = [] := List.perm_nil.1 (S.perm [])

theorem Append_on_empty (S : SortImpl) (x w : Int) :
    nodelist.Append S [] x w = [node.mk x w .nil .nil false []] := by
  simp only [nodelist.Append, nodelist.reset, List.foldl_nil, List.nil_append,
    S.sort_singleton, nodelist.huffmanCode, List.length_singleton, nodelist.mergeLoop,
    nodelist.nextStep, node.huffmanCode]
  split <;> rfl

/-- C19.  `Clear` empties the forest, so that `Decode` then returns the empty-tree
error, and leaves the symbol-to-code map as it was, so that `Encode` returns the same
output and error as before; the next `Append(x, w)` replaces the map by the one of the
one-node tree, which holds at most the empty code of `x`. -/
theorem clear_keeps_map (S : SortImpl) (coder : HuffmanCoder) (t input : List Char)
    (x w : Int) :
    coder.Clear.nodelist = [] ∧
    coder.Clear.Decode input = ([], some .emptyTree) ∧
    coder.Clear.coder = coder.coder ∧
    coder.Clear.Encode t = coder.Encode t ∧
    (coder.Clear.Append S x w).coder
      = (if x > 0 then setCode emptyCoder x [] else emptyCoder) := by
  refine ⟨rfl, rfl, rfl, rfl, ?_⟩
  have e : nodelist.Append S coder.Clear.nodelist x w = [node.mk x w .nil .nil false []] :=
    Append_on_empty S x w
  simp only [HuffmanCoder.Append, e, List.headD_cons, getCoder]

theorem node.mem_nodes_self (c w : Int) (l r : node) (v : Bool) (h : List Char) :
    node.mk c w l r v h ∈ (node.mk c w l r v h).nodes := by
  simp [node.nodes]

/-- The merge loop, on any non-empty forest: one tree remains, it keeps the symbol
nodes of the forest and contains every node of the forest. -/
theorem nodelist.mergeLoop_single (S : SortImpl) (n : Nat) :
    ∀ (fuel : Nat) (F : nodelist), F.length = n + 1 → n + 1 ≤ fuel →
      ∃ root, nodelist.mergeLoop S fuel F = [root] ∧
        root.leaves.Perm (F.flatMap node.leaves) ∧
        ∀ t ∈ F, ∀ u ∈ t.nodes, u ∈ root.nodes := by
  induction n with
  | zero =>
    intro fuel F hlen hfuel
    match F, hlen, fuel, hfuel with
    | [a], _, k + 1, _ =>
      refine ⟨a, rfl, by simp, ?_⟩
      intro t ht u hu
      simp only [List.mem_singleton] at ht
      subst ht
      exact hu
  | succ n ih =>
    intro fuel F hlen hfuel
    match F, hlen, fuel, hfuel with
    | a :: b :: rest, hlen, k + 1, hfuel =>
      simp only [nodelist.mergeLoop, nodelist.nextStep]
      have hperm := S.perm (rest ++ [node.mk 0 (wrapInt (a.weight + b.weight)) a b false []])
      obtain ⟨root, h1, h2, h3⟩ := ih k
        (S.sort (rest ++ [node.mk 0 (wrapInt (a.weight + b.weight)) a b false []]))
        (by rw [S.length_sort]; simp at hlen ⊢; omega) (by omega)
      have hitem : node.mk 0 (wrapInt (a.weight + b.weight)) a b false []
          ∈ S.sort (rest ++ [node.mk 0 (wrapInt (a.weight + b.weight)) a b false []]) :=
        hperm.symm.subset (by simp)
      refine ⟨root, h1, ?_, ?_⟩
      · refine h2.trans ((flatMap_leaves_perm hperm).trans ?_)
        simp only [List.flatMap_append, List.flatMap_cons, List.flatMap_nil, node.leaves,
          List.append_nil]
        simp only [gt_iff_lt, lt_self_iff_false, ↓reduceIte, List.nil_append]
        exact List.perm_append_comm.trans (by simp)
      · intro t ht u hu
        simp only [List.mem_cons] at ht
        rcases ht with rfl | rfl | ht
        · exact h3 _ hitem u (by simp [node.nodes, hu])
        · exact h3 _ hitem u (by simp [node.nodes, hu])
        · exact h3 t (hperm.symm.subset (by simp [ht])) u hu

theorem node.huffmanCode_keeps (x w : Int) (v : Bool) (h : List Char) (hx : x ≤ 0) (t : node) :
    ∀ p, node.mk x w .nil .nil v h ∈ t.nodes →
      node.mk x w .nil .nil v h ∈ (t.huffmanCode p).nodes := by
  induction t with
  | nil => intro p hu; simp [node.nodes] at hu
  | mk c w1 l r v1 h1 ihl ihr =>
    intro p hu
    simp only [node.nodes, List.mem_cons, List.mem_append] at hu
    simp only [node.huffmanCode, node.nodes, List.mem_cons, List.mem_append]
    rcases hu with e | hu | hu
    · left
      injection e with e1 e2 e3 e4 e5 e6
      subst e1 e2 e3 e4 e5 e6
      have : ¬ (x > 0) := by omega
      simp [node.huffmanCode, this]
    · exact Or.inr (Or.inl (ihl _ hu))
    · exact Or.inr (Or.inr (ihr _ hu))

theorem flatMap_leaves_reset (F : nodelist) :
    (nodelist.reset F).flatMap node.leaves = F.flatMap node.leaves := by
  rw [nodelist.reset_fresh, flatMap_leaves_fresh _ (flatMap_leaves_pos F)]

/-- C20.  `Append(x, w)` with `x ≤ 0`, on any coder: the forest becomes one tree that
contains the node `(x, w)`, childless and with the empty string as its code; the map has
no entry for `x`; and the leaves that the next `Append` restores by `reset` are those
that `reset` restored before the call, so the node is dropped then.  In particular,
after `Append(0, w)` and `Append(y, v)` with `y > 0` on a fresh coder, the forest is the
single leaf `(y, v)`: the weight `w` is in no node. -/
theorem nonpositive_symbol (S : SortImpl) (coder : HuffmanCoder) (x w y v : Int)
    (hx : x ≤ 0) (hy : 0 < y) :
    (∃ root, (coder.Append S x w).nodelist = [root] ∧
      node.mk x w .nil .nil false [] ∈ root.nodes ∧
      root.leaves.Perm (coder.nodelist.flatMap node.leaves)) ∧
    (coder.Append S x w).coder x = none ∧
    (nodelist.reset (coder.Append S x w).nodelist).Perm (nodelist.reset coder.nodelist) ∧
    (build S [(0, w), (y, v)]).nodelist = [node.mk y v .nil .nil false []] := by
  have hlen : (S.sort (nodelist.reset coder.nodelist ++ [node.mk x w .nil .nil false []])).length
      = (nodelist.reset coder.nodelist).length + 1 := by
    rw [S.length_sort]; simp
  obtain ⟨root1, h1, h2, h3⟩ :=
    nodelist.mergeLoop_single S _ _ _ hlen (Nat.le_of_eq hlen.symm)
  have hperm := S.perm (nodelist.reset coder.nodelist ++ [node.mk x w .nil .nil false []])
  have hnl : (coder.Append S x w).nodelist = [root1.huffmanCode []] := by
    simp only [HuffmanCoder.Append, nodelist.Append, nodelist.huffmanCode, h1]
  have hxpos : ¬ (x > 0) := by omega
  have hleaves : (root1.huffmanCode []).leaves.Perm (coder.nodelist.flatMap node.leaves) := by
    rw [node.huffmanCode_leaves]
    refine h2.trans ((flatMap_leaves_perm hperm).trans ?_)
    rw [List.flatMap_append, flatMap_leaves_reset]
    simp [node.leaves, hxpos]
  refine ⟨⟨root1.huffmanCode [], hnl, ?_, hleaves⟩, ?_, ?_, ?_⟩
  · apply node.huffmanCode_keeps x w false [] hx
    exact h3 _ (hperm.symm.subset (by simp)) _ (node.mem_nodes_self _ _ _ _ _ _)
  · have hc : (coder.Append S x w).coder = getCoder emptyCoder (root1.huffmanCode []) := by
      simp only [HuffmanCoder.Append, nodelist.Append, nodelist.huffmanCode, h1,
        List.headD_cons]
    rw [hc]
    apply getCoder_not_mem
    intro hmem
    obtain ⟨p, hp, e⟩ := List.mem_map.1 hmem
    have := node.leaves_pos _ p hp
    omega
  · rw [hnl, nodelist.reset_fresh, nodelist.reset_fresh]
    simp only [List.flatMap_cons, List.flatMap_nil, List.append_nil]
    exact hleaves.map freshLeaf
  · have h0 : ¬ ((0 : Int) > 0) := by omega
    have e1 : (build S [(0, w)]).nodelist = [node.mk 0 w .nil .nil false []] := by
      simp only [build, List.foldl_cons, List.foldl_nil, HuffmanCoder.Append, NewHuffmanCoder,
        Append_on_empty]
    have e2 : build S [(0, w), (y, v)] = (build S [(0, w)]).Append S y v :=
      build_snoc S [(0, w)] (y, v)
    rw [e2]
    simp only [HuffmanCoder.Append, e1, nodelist.Append, nodelist.reset, List.foldl_cons,
      List.foldl_nil, node.reset, h0, if_false, List.nil_append, S.sort_singleton,
      nodelist.huffmanCode, List.length_singleton, nodelist.mergeLoop, nodelist.nextStep,
      node.huffmanCode, hy, gt_iff_lt, if_true]

theorem nonpositive_symbol_witness :
    (∃ root, ((build goSort [(97, 1), (98, 2)]).Append goSort 0 5).nodelist = [root] ∧
      node.mk 0 5 .nil .nil false [] ∈ root.nodes ∧
      root.leaves.Perm ((build goSort [(97, 1), (98, 2)]).nodelist.flatMap node.leaves)) ∧
    ((build goSort [(97, 1), (98, 2)]).Append goSort 0 5).coder 0 = none ∧
    (nodelist.reset ((build goSort [(97, 1), (98, 2)]).Append goSort 0 5).nodelist).Perm
      (nodelist.reset (build goSort [(97, 1), (98, 2)]).nodelist) ∧
    (build goSort [(0, 5), (99, 3)]).nodelist = [node.mk 99 3 .nil .nil false []] :=
  nonpositive_symbol goSort (build goSort [(97, 1), (98, 2)]) 0 5 99 3 (by decide) (by decide)

/-! ## The sum invariant (C13) -/


/-- A property of the forest that every `nextStep` keeps holds when the loop ends. -/
theorem nodelist.mergeLoop_invariant (S : SortImpl) (P : nodelist → Prop)
    (hstep : ∀ a b rest, P (a :: b :: rest) →
      P (S.sort (rest ++ [node.mk 0 (wrapInt (a.weight + b.weight)) a b false []]))) :
    ∀ (fuel : Nat) (F : nodelist), P F → P (nodelist.mergeLoop S fuel F) := by
  intro fuel
  induction fuel with
  | zero => exact fun F h => h
  | succ n ih =>
    intro F h
    match F, h with
    | [], h => exact h
    | [_], h => exact h
    | a :: b :: rest, h =>
      simp only [nodelist.mergeLoop, nodelist.nextStep]
      exact ih _ (hstep a b rest h)

theorem node.huffmanCode_weight (t : node) (p : List Char) :
    (t.huffmanCode p).weight = t.weight := by
  cases t <;> rfl

theorem node.huffmanCode_eq_nil (t : node) (p : List Char) :
    t.huffmanCode p = .nil ↔ t = .nil := by
  cases t <;> simp [node.huffmanCode]

theorem node.huffmanCode_sums (add : Int → Int → Int) (t : node) (p : List Char)
    (h : t.Sums add) : (t.huffmanCode p).Sums add := by
  induction t generalizing p with
  | nil => exact h
  | mk c w l r v hc ihl ihr =>
    rcases h with ⟨rfl, rfl⟩ | ⟨h1, h2, h3, h4, h5⟩
    · exact Or.inl ⟨rfl, rfl⟩
    · refine Or.inr ⟨?_, ?_, ?_, ihl _ h4, ihr _ h5⟩
      · exact fun e => h1 ((node.huffmanCode_eq_nil l _).1 e)
      · exact fun e => h2 ((node.huffmanCode_eq_nil r _).1 e)
      · rw [node.huffmanCode_weight, node.huffmanCode_weight]
        exact h3

theorem freshLeaf_sums (add : Int → Int → Int) (p : Int × Int) : (freshLeaf p).Sums add :=
  Or.inl ⟨rfl, rfl⟩

/-- With wrapping addition the sum invariant holds in every forest the loop reaches. -/
theorem sums_step (S : SortImpl) (a b : node) (rest : nodelist)
    (h : ∀ t ∈ a :: b :: rest, t ≠ .nil ∧ t.Sums goAdd) :
    ∀ t ∈ S.sort (rest ++ [node.mk 0 (wrapInt (a.weight + b.weight)) a b false []]),
      t ≠ .nil ∧ t.Sums goAdd := by
  intro t ht
  rcases List.mem_append.1 ((S.perm _).subset ht) with ht | ht
  · exact h t (by simp [ht])
  · simp only [List.mem_singleton] at ht
    subst ht
    have ha := h a (by simp)
    have hb := h b (by simp)
    exact ⟨by simp, Or.inr ⟨ha.1, hb.1, rfl, ha.2, hb.2⟩⟩

/-- Without overflow the sum invariant holds exactly. -/
theorem exact_step (S : SortImpl) (a b : node) (rest : nodelist)
    (h : Ready (a :: b :: rest) ∧ ∀ t ∈ a :: b :: rest, t.Sums (· + ·)) :
    Ready (S.sort (rest ++ [node.mk 0 (wrapInt (a.weight + b.weight)) a b false []])) ∧
      ∀ t ∈ S.sort (rest ++ [node.mk 0 (wrapInt (a.weight + b.weight)) a b false []]),
        t.Sums (· + ·) := by
  obtain ⟨hR, hS⟩ := h
  obtain ⟨hw, hR1⟩ := hR.merge
  refine ⟨hR1.of_perm (S.perm _), ?_⟩
  intro t ht
  rcases List.mem_append.1 ((S.perm _).subset ht) with ht | ht
  · exact hS t (by simp [ht])
  · simp only [List.mem_singleton] at ht
    subst ht
    have ha := hR.1 a (by simp)
    have hb := hR.1 b (by simp)
    exact Or.inr ⟨ha.ne_nil, hb.ne_nil, hw, hS a (by simp), hS b (by simp)⟩

/-- C13, as the code has it.  After one or more `Append` calls the forest is one tree
in which every node that has a child has two children and carries the sum of their
weights as Go computes it, wrapped to 64 bits.  When moreover the symbols are positive
and the weights are not negative with a sum below `2^63`, every such node carries the
exact sum, and the weight of the root is the sum of the appended weights. -/
theorem sum_invariant (S : SortImpl) (apps : List (Int × Int)) (hne : apps ≠ []) :
    ∃ root, (build S apps).nodelist = [root] ∧ root.Sums goAdd ∧
      ((∀ p ∈ apps, 0 < p.1) → (∀ p ∈ apps, 0 ≤ p.2) → (apps.map Prod.snd).sum < 2 ^ 63 →
        root.Sums (· + ·) ∧ root.weight = (apps.map Prod.snd).sum) := by
  induction apps using List.reverseRecOn with
  | nil => exact absurd rfl hne
  | append_singleton init p _ =>
    have hlen : (S.sort (nodelist.reset (build S init).nodelist
        ++ [node.mk p.1 p.2 .nil .nil false []])).length
        = (nodelist.reset (build S init).nodelist).length + 1 := by
      rw [S.length_sort]; simp
    obtain ⟨root1, h1, h2, _⟩ :=
      nodelist.mergeLoop_single S _ _ _ hlen (Nat.le_of_eq hlen.symm)
    have hnl : (build S (init ++ [p])).nodelist = [root1.huffmanCode []] := by
      rw [build_snoc]
      simp only [HuffmanCoder.Append, nodelist.Append, nodelist.huffmanCode, h1]
    have hfresh : nodelist.reset (build S init).nodelist ++ [node.mk p.1 p.2 .nil .nil false []]
        = ((build S init).nodelist.flatMap node.leaves ++ [p]).map freshLeaf := by
      rw [nodelist.reset_fresh]
      simp [freshLeaf]
    refine ⟨root1.huffmanCode [], hnl, ?_, ?_⟩
    · apply node.huffmanCode_sums
      have hQ := nodelist.mergeLoop_invariant S (fun F => ∀ t ∈ F, t ≠ .nil ∧ t.Sums goAdd)
        (sums_step S) (S.sort (nodelist.reset (build S init).nodelist
          ++ [node.mk p.1 p.2 .nil .nil false []])).length
        (S.sort (nodelist.reset (build S init).nodelist
          ++ [node.mk p.1 p.2 .nil .nil false []])) (by
          intro t ht
          have ht1 := (S.perm _).subset ht
          rw [hfresh] at ht1
          obtain ⟨q, _, rfl⟩ := List.mem_map.1 ht1
          exact ⟨by simp [freshLeaf], freshLeaf_sums _ q⟩)
      rw [h1] at hQ
      exact (hQ root1 (by simp)).2
    · intro hpos hw hsum
      have hperm : ((build S init).nodelist.flatMap node.leaves ++ [p]).Perm (init ++ [p]) :=
        (build_forest S init (fun q hq => hpos q (by simp [hq]))).append_right _
      have hR := ready_fresh S _ (fun q hq => hpos q (hperm.subset hq))
        (fun q hq => hw q (hperm.subset hq))
        (by rw [(hperm.map Prod.snd).sum_eq]; exact hsum)
      rw [← hfresh] at hR
      have hP := nodelist.mergeLoop_invariant S
        (fun F => Ready F ∧ ∀ t ∈ F, t.Sums (· + ·)) (exact_step S)
        (S.sort (nodelist.reset (build S init).nodelist
          ++ [node.mk p.1 p.2 .nil .nil false []])).length
        (S.sort (nodelist.reset (build S init).nodelist
          ++ [node.mk p.1 p.2 .nil .nil false []])) ⟨hR, by
          intro t ht
          have ht1 := (S.perm _).subset ht
          rw [hfresh] at ht1
          obtain ⟨q, _, rfl⟩ := List.mem_map.1 ht1
          exact freshLeaf_sums _ q⟩
      rw [h1] at hP
      refine ⟨node.huffmanCode_sums _ _ _ (hP.2 root1 (by simp)), ?_⟩
      rw [node.huffmanCode_weight, hP.1.2.1 root1 (by simp)]
      unfold node.total
      refine (h2.map Prod.snd).sum_eq.trans ?_
      refine ((flatMap_leaves_perm (S.perm _)).map Prod.snd).sum_eq.trans ?_
      rw [hfresh, flatMap_leaves_fresh _ (fun q hq => hpos q (hperm.subset hq))]
      exact (hperm.map Prod.snd).sum_eq

theorem sum_invariant_witness :
    ∃ root, (build goSort [(97, 5), (98, 9), (99, 12)]).nodelist = [root] ∧ root.Sums goAdd ∧
      ((∀ p ∈ [((97 : Int), (5 : Int)), (98, 9), (99, 12)], 0 < p.1) →
        (∀ p ∈ [((97 : Int), (5 : Int)), (98, 9), (99, 12)], 0 ≤ p.2) →
        ([((97 : Int), (5 : Int)), (98, 9), (99, 12)].map Prod.snd).sum < 2 ^ 63 →
        root.Sums (· + ·) ∧
          root.weight = ([((97 : Int), (5 : Int)), (98, 9), (99, 12)].map Prod.snd).sum) :=
  sum_invariant goSort [(97, 5), (98, 9), (99, 12)] (by decide)

/-- C13 as stated fails.  After `Append('a', 2^62)` and `Append('b', 2^62)` the root
has the two leaves as children and weight `-2^63`, while the weights of its children,
which are all the leaf weights, add up to `2^63`. -/
theorem sum_overflow_counterexample :
    ∃ root, (build goSort [(97, 2 ^ 62), (98, 2 ^ 62)]).nodelist = [root] ∧
      ¬ root.Sums (· + ·) ∧ root.weight = -2 ^ 63 ∧
      root.left.weight + root.right.weight = 2 ^ 63 ∧
      (root.leaves.map Prod.snd).sum = 2 ^ 63 :=
  ⟨(build goSort [(97, 2 ^ 62), (98, 2 ^ 62)]).nodelist.headD .nil, by decide, by decide,
    by decide, by decide, by decide⟩

/-! ## The greedy merge step (C14) -/


theorem nodelist.steps_short (S : SortImpl) (k : Nat) (l : nodelist) (h : l.length < 2) :
    nodelist.steps S k l = l := by
  induction k with
  | zero => rfl
  | succ n ih => rw [nodelist.steps, nodelist.nextStep_short S l h]; exact ih

/-- The loop of `nodelist.huffmanCode` runs through the forests `steps S k`. -/
theorem nodelist.mergeLoop_eq_steps (S : SortImpl) (fuel : Nat) (l : nodelist) :
    nodelist.mergeLoop S fuel l = nodelist.steps S fuel l := by
  induction fuel generalizing l with
  | zero => rfl
  | succ n ih =>
    match l with
    | [] => exact (nodelist.steps_short S _ [] (by simp)).symm
    | [a] => exact (nodelist.steps_short S _ [a] (by simp)).symm
    | a :: b :: rest =>
      simp only [nodelist.mergeLoop, nodelist.steps, nodelist.nextStep]
      exact ih _

theorem nodelist.nextStep_ascending (S : SortImpl) (l : nodelist) (h : Ascending l) :
    Ascending (nodelist.nextStep S l).1 := by
  match l, h with
  | [], h => exact h
  | [_], h => exact h
  | a :: b :: rest, _ => exact S.sorted _

theorem nodelist.steps_ascending (S : SortImpl) (k : Nat) (l : nodelist) (h : Ascending l) :
    Ascending (nodelist.steps S k l) := by
  induction k generalizing l with
  | zero => exact h
  | succ n ih => exact ih _ (nodelist.nextStep_ascending S l h)

/-- C14, as the code has it.  During `Append` the loop starts on a forest sorted
ascending by weight and every forest it reaches is sorted.  On a sorted forest of
length `n ≥ 2`, `nextStep` takes the first two elements `a`, `b`, whose weights are at
most those of all others, returns true, and leaves a sorted forest of length `n - 1`
made of the other elements and a new node with `left = a`, `right = b` and the weight
`a.weight + b.weight` as Go computes it: wrapped to 64 bits, hence the exact sum when
that lies in the range of `int`.  On a forest of length below 2, `nextStep` changes
nothing and returns false. -/
theorem greedy_step (S : SortImpl) (list F : nodelist) (c w : Int) :
    (∀ k, Ascending (nodelist.steps S k
        (S.sort (nodelist.reset list ++ [node.mk c w .nil .nil false []])))) ∧
    (∀ fuel l, nodelist.mergeLoop S fuel l = nodelist.steps S fuel l) ∧
    (Ascending F → 2 ≤ F.length →
      ∃ a b rest, F = a :: b :: rest ∧ a.weight ≤ b.weight ∧
        (∀ t ∈ rest, a.weight ≤ t.weight ∧ b.weight ≤ t.weight) ∧
        (nodelist.nextStep S F).2 = true ∧
        (nodelist.nextStep S F).1.Perm
          (rest ++ [node.mk 0 (wrapInt (a.weight + b.weight)) a b false []]) ∧
        Ascending (nodelist.nextStep S F).1 ∧
        (nodelist.nextStep S F).1.length = F.length - 1 ∧
        (-2 ^ 63 ≤ a.weight + b.weight → a.weight + b.weight < 2 ^ 63 →
          wrapInt (a.weight + b.weight) = a.weight + b.weight)) ∧
    (F.length < 2 → nodelist.nextStep S F = (F, false)) := by
  refine ⟨fun k => nodelist.steps_ascending S k _ (S.sorted _),
    nodelist.mergeLoop_eq_steps S, ?_, nodelist.nextStep_short S F⟩
  intro hF h2
  match F, hF, h2 with
  | a :: b :: rest, hF, _ =>
    unfold Ascending at hF
    rw [List.pairwise_cons, List.pairwise_cons] at hF
    have hab : a.weight ≤ b.weight := not_lt.1 (hF.1 b (by simp))
    refine ⟨a, b, rest, rfl, hab, ?_, rfl, S.perm _, S.sorted _, ?_, wrapInt_eq _⟩
    · intro t ht
      have h1 : a.weight ≤ t.weight := not_lt.1 (hF.1 t (by simp [ht]))
      have h2 : b.weight ≤ t.weight := not_lt.1 (hF.2.1 t ht)
      exact ⟨h1, h2⟩
    · simp only [nodelist.nextStep, S.length_sort]
      simp

theorem greedy_step_witness :
    ∃ a b rest, [freshLeaf (97, 1), freshLeaf (98, 2), freshLeaf (99, 4)] = a :: b :: rest ∧
      a.weight ≤ b.weight ∧
      (∀ t ∈ rest, a.weight ≤ t.weight ∧ b.weight ≤ t.weight) ∧
      (nodelist.nextStep goSort [freshLeaf (97, 1), freshLeaf (98, 2), freshLeaf (99, 4)]).2
        = true ∧
      (nodelist.nextStep goSort [freshLeaf (97, 1), freshLeaf (98, 2), freshLeaf (99, 4)]).1.Perm
        (rest ++ [node.mk 0 (wrapInt (a.weight + b.weight)) a b false []]) ∧
      Ascending
        (nodelist.nextStep goSort [freshLeaf (97, 1), freshLeaf (98, 2), freshLeaf (99, 4)]).1 ∧
      (nodelist.nextStep goSort
        [freshLeaf (97, 1), freshLeaf (98, 2), freshLeaf (99, 4)]).1.length
        = [freshLeaf (97, 1), freshLeaf (98, 2), freshLeaf (99, 4)].length - 1 ∧
      (-2 ^ 63 ≤ a.weight + b.weight → a.weight + b.weight < 2 ^ 63 →
        wrapInt (a.weight + b.weight) = a.weight + b.weight) :=
  (greedy_step goSort [] [freshLeaf (97, 1), freshLeaf (98, 2), freshLeaf (99, 4)] 0 0).2.2.1
    (by decide) (by decide)

/-- C14 as stated fails.  During `Append('b', 2^62)` after `Append('a', 2^62)` the
merge step runs on the sorted forest of the two leaves and creates a node of weight
`-2^63`, not `a.weight + b.weight = 2^63`. -/
theorem greedy_step_overflow_counterexample :
    goSort.sort (nodelist.reset (build goSort [(97, 2 ^ 62)]).nodelist
        ++ [node.mk 98 (2 ^ 62) .nil .nil false []])
      = [freshLeaf (97, 2 ^ 62), freshLeaf (98, 2 ^ 62)] ∧
    Ascending [freshLeaf (97, 2 ^ 62), freshLeaf (98, 2 ^ 62)] ∧
    nodelist.nextStep goSort [freshLeaf (97, 2 ^ 62), freshLeaf (98, 2 ^ 62)]
      = ([node.mk 0 (-2 ^ 63) (freshLeaf (97, 2 ^ 62)) (freshLeaf (98, 2 ^ 62)) false []],
          true) ∧
    (-2 ^ 63 : Int) ≠ (freshLeaf (97, 2 ^ 62)).weight + (freshLeaf (98, 2 ^ 62)).weight := by
  decide

/-! ## Order of elements of equal weight (C15) -/


theorem ofWeight_insertNode_ne (w : Int) (x : node) (acc : nodelist) (hx : x.weight ≠ w) :
    ofWeight w (insertNode x acc) = ofWeight w acc := by
  induction acc with
  | nil => simp [insertNode, ofWeight, hx]
  | cons y ys ih =>
    unfold insertNode
    split
    · simp [ofWeight, hx]
    · unfold ofWeight at ih ⊢
      simp only [List.filter_cons, ih]

theorem ofWeight_insertNode_eq (x : node) (acc : nodelist) (hacc : Ascending acc) :
    ofWeight x.weight (insertNode x acc) = ofWeight x.weight acc ++ [x] := by
  induction acc with
  | nil => simp [insertNode, ofWeight]
  | cons y ys ih =>
    unfold Ascending at hacc
    rw [List.pairwise_cons] at hacc
    unfold insertNode
    split
    · rename_i hlt
      have hnone : ofWeight x.weight (y :: ys) = [] := by
        unfold ofWeight
        rw [List.filter_eq_nil_iff]
        intro t ht
        simp only [decide_eq_true_eq]
        unfold nodelist.Less at hlt hacc
        rcases List.mem_cons.1 ht with rfl | ht
        · omega
        · have := hacc.1 t ht
          omega
      have e : ofWeight x.weight (x :: y :: ys) = x :: ofWeight x.weight (y :: ys) := by
        simp [ofWeight]
      rw [e, hnone]
      rfl
    · have h := ih hacc.2
      unfold ofWeight at h ⊢
      simp only [List.filter_cons, h]
      split <;> simp

theorem ofWeight_foldl (w : Int) (l acc : nodelist) (hacc : Ascending acc) :
    ofWeight w (l.foldl (fun acc x => insertNode x acc) acc) = ofWeight w acc ++ ofWeight w l := by
  induction l generalizing acc with
  | nil => simp [ofWeight]
  | cons x xs ih =>
    simp only [List.foldl_cons]
    rw [ih _ (insertNode_sorted x acc hacc)]
    by_cases hx : x.weight = w
    · subst hx
      rw [ofWeight_insertNode_eq x acc hacc]
      simp [ofWeight]
    · rw [ofWeight_insertNode_ne w x acc hx]
      simp [ofWeight, hx]

/-- The insertion sort keeps elements of equal weight in their order. -/
theorem insertionSort_stable (w : Int) (l : nodelist) :
    ofWeight w (insertionSort l) = ofWeight w l := by
  have := ofWeight_foldl w l [] List.Pairwise.nil
  simpa [insertionSort, ofWeight] using this

/-! ## Rendering -/

/-! ## Read-only operations (C17) -/


theorem node.traverse_reset_mk (c w : Int) (l r : node) (v : Bool) (h : List Char) :
    (node.mk c w l r v h).traverse node.resetVisited
      = .mk c w (l.traverse node.resetVisited) (r.traverse node.resetVisited) false h := rfl

theorem node.traverse_reset_idem (t : node) :
    (t.traverse node.resetVisited).traverse node.resetVisited
      = t.traverse node.resetVisited := by
  induction t with
  | nil => rfl
  | mk c w l r v h ihl ihr => simp only [node.traverse_reset_mk, ihl, ihr]

theorem node.traverse_reset_tree (t : node) (up : List (Bool × node)) (d : Nat) :
    (t.tree up d).1.traverse node.resetVisited = t.traverse node.resetVisited := by
  induction t generalizing up d with
  | nil => rfl
  | mk c w l r v h ihl ihr => simp only [node.tree, node.traverse_reset_mk, ihl, ihr]

theorem nodelist.Tree_foldl (M : nodelist) (acc : List Char × nodelist) :
    (M.foldl
      (fun acc item =>
        if !item.visited then
          (acc.1 ++ (item.tree [] 0).2 ++ ['\n', '\n'], acc.2 ++ [(item.tree [] 0).1])
        else (acc.1 ++ ['\n', '\n'], acc.2 ++ [item])) acc).2
      = acc.2 ++ M.map (fun item => if !item.visited then (item.tree [] 0).1 else item) := by
  induction M generalizing acc with
  | nil => simp
  | cons item M ih =>
    simp only [List.foldl_cons, List.map_cons]
    rw [ih]
    split <;> simp

/-- After `Tree` the forest differs from the one before in `visited` flags only. -/
theorem nodelist.resetVisted_Tree (l : nodelist) :
    nodelist.resetVisted (nodelist.Tree l).2 = nodelist.resetVisted l := by
  unfold nodelist.Tree
  rw [nodelist.Tree_foldl]
  simp only [List.nil_append, nodelist.resetVisted, List.map_map]
  apply List.map_congr_left
  intro t _
  simp only [Function.comp]
  split
  · rw [node.traverse_reset_tree, node.traverse_reset_idem]
  · rw [node.traverse_reset_idem]

theorem nodelist.Tree_congr (l1 l2 : nodelist)
    (h : nodelist.resetVisted l1 = nodelist.resetVisted l2) :
    (nodelist.Tree l1).1 = (nodelist.Tree l2).1 := by
  unfold nodelist.Tree
  rw [h]

theorem HuffmanCoder.read_coder (coder : HuffmanCoder) (op : ReadOp) :
    (coder.read op).coder = coder.coder := by
  cases op <;> rfl

theorem HuffmanCoder.reads_coder (rs : List ReadOp) (coder : HuffmanCoder) :
    (rs.foldl HuffmanCoder.read coder).coder = coder.coder := by
  induction rs generalizing coder with
  | nil => rfl
  | cons op rs ih => rw [List.foldl_cons, ih, HuffmanCoder.read_coder]

/-- C17.  In every state reached by `Append` and `Clear` calls followed by any number
of `Tree`, `Encode` and `Decode` calls, a second `Tree()` right after a first returns
the same string, whatever `visited` flags the first left; and `Encode(t)` returns the
same output and error after the reading calls as before them. -/
theorem reads_idempotent (S : SortImpl) (ws : List WriteOp) (rs : List ReadOp)
    (t : List Char) :
    ((rs.foldl HuffmanCoder.read (ws.foldl (HuffmanCoder.write S) NewHuffmanCoder)).Tree.2).Tree.1
      = (rs.foldl HuffmanCoder.read (ws.foldl (HuffmanCoder.write S) NewHuffmanCoder)).Tree.1 ∧
    (rs.foldl HuffmanCoder.read (ws.foldl (HuffmanCoder.write S) NewHuffmanCoder)).Encode t
      = (ws.foldl (HuffmanCoder.write S) NewHuffmanCoder).Encode t := by
  constructor
  · exact nodelist.Tree_congr _ _ (nodelist.resetVisted_Tree _)
  · simp only [HuffmanCoder.Encode, HuffmanCoder.reads_coder]

/-! ## Layout of the rendered tree (C18) -/


theorem node.huffmanCode_codedAt (t : node) (p : List Char) : (t.huffmanCode p).CodedAt p := by
  induction t generalizing p with
  | nil => trivial
  | mk c w l r v h ihl ihr =>
    refine ⟨fun hc => ?_, ihl _, ihr _⟩
    simp [hc]

/-- After one or more `Append` calls with positive symbols the forest is one code tree
whose symbol nodes hold their paths. -/
theorem build_coded (S : SortImpl) (apps : List (Int × Int)) (hne : apps ≠ [])
    (hpos : ∀ p ∈ apps, 0 < p.1) :
    ∃ root, (build S apps).nodelist = [root] ∧ root.Proper ∧ root.CodedAt [] ∧
      root.leaves.Perm apps := by
  obtain ⟨root, h1, hP, _, hleaves, _⟩ := build_spec S apps hne hpos
  refine ⟨root, h1, hP, ?_, hleaves⟩
  induction apps using List.reverseRecOn with
  | nil => exact absurd rfl hne
  | append_singleton init p _ =>
    rw [build_snoc] at h1
    simp only [HuffmanCoder.Append, nodelist.Append, nodelist.huffmanCode] at h1
    split at h1
    · cases h1
    · rename_i r0 rest _
      have e : root = r0.huffmanCode [] := ((List.cons.inj h1).1).symm
      rw [e]
      exact node.huffmanCode_codedAt _ _

theorem indent_foldl (chain : List (Bool × node)) (acc : List Char) :
    chain.foldl
        (fun str e => (if e.1 then padRight 8 vert_line else padRight 8 [' ']) ++ str) acc
      = (chain.map Prod.fst).reverse.flatMap
          (fun isLeft => if isLeft then '┃' :: List.replicate 7 ' ' else List.replicate 8 ' ')
        ++ acc := by
  induction chain generalizing acc with
  | nil => rfl
  | cons e chain ih =>
    rw [List.foldl_cons, ih]
    simp only [List.map_cons, List.reverse_cons, List.flatMap_append, List.flatMap_cons,
      List.flatMap_nil, List.append_nil, List.append_assoc]
    cases e.1 <;> rfl

theorem pathCode_concat (path : List Bool) (b : Bool) :
    pathCode (path ++ [b]) = pathCode path ++ [if b then '0' else '1'] := by
  simp [pathCode]

/-- The text that `node.tree` writes for a code tree whose symbol nodes hold their
paths is the sequence of the layout lines of its nodes, in pre-order. -/
theorem node.tree_text (t : node) (ht : t.Proper) :
    ∀ (path : List Bool) (up : List (Bool × node)), t.CodedAt (pathCode path) →
      up.map Prod.fst = path.reverse →
      (∀ parent rest, up = (true, parent) :: rest → parent.right ≠ .nil) →
      ((t.traverse node.resetVisited).tree up path.length).2
        = (t.positions path).flatMap (fun p => layoutLine p.1 p.2 ++ ['\n']) := by
  induction t with
  | nil => exact absurd ht id
  | mk c w l r v h ihl ihr =>
    intro path up hcoded hup hsib
    -- the line of the node itself
    have hline : treeIndent up ++ treeConnector up path.length
          = path.dropLast.flatMap
              (fun isLeft =>
                if isLeft then '┃' :: List.replicate 7 ' ' else List.replicate 8 ' ')
            ++ (match path.getLast? with
                | none => []
                | some true => ['┣', '━', '━']
                | some false => ['┗', '━', '━']) := by
      unfold treeIndent treeConnector
      rw [indent_foldl, List.append_nil]
      rcases List.eq_nil_or_concat path with rfl | ⟨q, b, rfl⟩
      · simp only [List.reverse_nil, List.map_eq_nil_iff] at hup
        subst hup
        rfl
      · rw [List.concat_eq_append] at hup ⊢
        rw [List.reverse_concat] at hup
        match up, hup, hsib with
        | (b1, parent) :: up1, hup, hsib =>
          simp only [List.map_cons, List.cons.injEq] at hup
          obtain ⟨rfl, hup1⟩ := hup
          simp only [List.tail_cons, hup1, List.reverse_reverse, List.dropLast_concat,
            List.getLast?_concat, List.length_append, List.length_singleton]
          congr 1
          cases b1 with
          | true =>
            have := hsib parent up1 rfl
            simp [this, start_left_child]
          | false => simp [start_right_child]
    rcases ht with ⟨hc, rfl, rfl⟩ | ⟨rfl, hl, hr⟩
    · -- a leaf
      have hh : h = pathCode path := hcoded.1 hc
      simp only [node.traverse_reset_mk, node.traverse, node.tree, node.positions,
        List.append_nil, List.flatMap_cons, List.flatMap_nil]
      rw [hline]
      simp [layoutLine, node.label, node.left, node.right, node.weight, node.char, hc, hh]
    · -- a node with two children
      have hl1 := ihl hl (path ++ [true])
        ((true, node.mk 0 w (l.traverse node.resetVisited) (r.traverse node.resetVisited)
          false h) :: up)
        (by rw [pathCode_concat]; exact hcoded.2.1)
        (by simp [hup])
        (by
          intro parent rest e
          simp only [List.cons.injEq, Prod.mk.injEq, true_and] at e
          rw [← e.1]
          cases r with
          | nil => exact absurd hr id
          | mk _ _ _ _ _ _ => simp [node.right, node.traverse_reset_mk])
      have hr1 := ihr hr (path ++ [false])
        ((false, node.mk 0 w (l.traverse node.resetVisited) (r.traverse node.resetVisited)
          false h) :: up)
        (by rw [pathCode_concat]; exact hcoded.2.2)
        (by simp [hup])
        (by
          intro parent rest e
          simp at e)
      simp only [List.length_append, List.length_singleton] at hl1 hr1
      simp only [node.traverse_reset_mk, node.tree, node.positions, List.flatMap_cons,
        List.flatMap_append]
      rw [hl1, hr1, hline]
      have hlne : l ≠ .nil := hl.ne_nil
      simp [layoutLine, node.label, node.left, node.right, node.weight, hlne]

theorem node.Proper.positions_length {t : node} (ht : t.Proper) (path : List Bool) :
    (t.positions path).length = 2 * t.leaves.length - 1 := by
  induction t generalizing path with
  | nil => exact absurd ht id
  | mk c w l r v h ihl ihr =>
    rcases ht with ⟨hc, rfl, rfl⟩ | ⟨rfl, hl, hr⟩
    · simp [node.positions, node.leaves, hc]
    · have h1 := List.length_pos.2 hl.leaves_ne_nil
      have h2 := List.length_pos.2 hr.leaves_ne_nil
      simp only [node.positions, node.leaves, List.length_cons, List.length_append,
        ihl hl, ihr hr]
      simp
      omega

/-- C18.  On a coder built by `N ≥ 1` `Append` calls with positive symbols, `Tree()`
writes one line for each of the `2N - 1` nodes of the tree, in pre-order, each as the
layout describes it (`layoutLine`), and then the two line ends that close the tree. -/
theorem tree_layout (S : SortImpl) (apps : List (Int × Int)) (hne : apps ≠ [])
    (hpos : ∀ p ∈ apps, 0 < p.1) :
    ∃ root, (build S apps).nodelist = [root] ∧
      (build S apps).Tree.1
        = (root.positions []).flatMap (fun p => layoutLine p.1 p.2 ++ ['\n']) ++ ['\n', '\n'] ∧
      (root.positions []).length = 2 * apps.length - 1 := by
  obtain ⟨root, h1, hP, hcoded, hleaves⟩ := build_coded S apps hne hpos
  refine ⟨root, h1, ?_, ?_⟩
  · have htext := node.tree_text root hP [] [] hcoded rfl (by intro _ _ e; cases e)
    have hvis : (root.traverse node.resetVisited).visited = false := by
      cases root with
      | nil => rfl
      | mk _ _ _ _ _ _ => rfl
    simp only [HuffmanCoder.Tree, h1, nodelist.Tree, nodelist.resetVisted, List.map_cons,
      List.map_nil, List.foldl_cons, List.foldl_nil, hvis, Bool.not_false, if_true,
      List.nil_append]
    rw [← htext]
    rfl
  · rw [hP.positions_length, hleaves.length_eq]

theorem tree_layout_witness :
    ∃ root, (build goSort [(97, 5), (98, 9), (99, 12)]).nodelist = [root] ∧
      (build goSort [(97, 5), (98, 9), (99, 12)]).Tree.1
        = (root.positions []).flatMap (fun p => layoutLine p.1 p.2 ++ ['\n']) ++ ['\n', '\n'] ∧
      (root.positions []).length = 2 * [((97 : Int), (5 : Int)), (98, 9), (99, 12)].length - 1 :=
  tree_layout goSort [(97, 5), (98, 9), (99, 12)] (by decide) (by decide)

/-! ## `sort.Sort` on a slice of 13 elements -/


theorem swapAt_perm (data : nodelist) (i j : Nat) : (swapAt data i j).Perm data := by
  unfold swapAt
  split
  · rename_i h
    rw [List.perm_iff_count]
    intro c
    have hj : j < (data.set i data[j]).length := by simpa using h.2
    rw [List.count_set _ _ _ _ hj, List.count_set _ _ _ _ h.1]
    have hget : (data.set i data[j])[j] = data[j] := by
      rw [List.getElem_set]
      split <;> rfl
    rw [hget]
    have h1 : (if data[i] == c then 1 else 0) ≤ data.count c := by
      have := List.boole_getElem_le_countP (fun x => x == c) data i h.1
      simpa [List.count_eq_countP] using this
    generalize (if data[i] == c then 1 else 0) = x at h1 ⊢
    generalize (if data[j] == c then 1 else 0) = y
    omega
  · exact List.Perm.refl _

theorem partitionLoop_perm (a : Nat) (fuel : Nat) (data : nodelist) (i j : Nat) :
    (partitionLoop a fuel data i j).1.Perm data := by
  induction fuel generalizing data i j with
  | zero => exact List.Perm.refl _
  | succ n ih =>
    simp only [partitionLoop]
    split
    · exact List.Perm.refl _
    · exact (ih _ _ _).trans (swapAt_perm _ _ _)

theorem partition_perm (data : nodelist) (a b pivot : Nat) :
    (partition data a b pivot).1.Perm data := by
  simp only [partition]
  split
  · exact (swapAt_perm _ _ _).trans (swapAt_perm _ _ _)
  · exact (swapAt_perm _ _ _).trans
      ((partitionLoop_perm _ _ _ _ _).trans ((swapAt_perm _ _ _).trans (swapAt_perm _ _ _)))

theorem firstRound_perm (data : nodelist) : (firstRound data).Perm data := by
  unfold firstRound
  split
  · exact List.Perm.refl _
  · exact partition_perm _ _ _ _

theorem pdqSort_perm (data : nodelist) : (pdqSort data).Perm data := by
  unfold pdqSort
  split
  · exact goSort.perm data
  · exact (goSort.perm _).trans (firstRound_perm data)

theorem pdqSort_sorted (data : nodelist) :
    (pdqSort data).Pairwise (fun a b => ¬ nodelist.Less b a) := by
  unfold pdqSort
  split
  · exact goSort.sorted data
  · exact goSort.sorted _

/-- The library's `sort.Sort`, for slices of up to 13 elements, as an implementation
of the contract. -/
def pdqS : SortImpl where
  sort := pdqSort
  perm := pdqSort_perm
  sorted := pdqSort_sorted

/-! ## Order of elements of equal weight: what holds and what does not (C15) -/

/-- Twelve symbols `a` to `l`, each of weight 2. -/
def tieApps : List (Int × Int) :=
  [(97, 2), (98, 2), (99, 2), (100, 2), (101, 2), (102, 2), (103, 2), (104, 2), (105, 2),
    (106, 2), (107, 2), (108, 2)]

/-- The forest that `Append('m', 1)` hands to `sort.Sort` after the twelve calls of
`tieApps`: the twelve leaves of weight 2 in the order of `reset`, then the new leaf. -/
def tieForest : nodelist :=
  nodelist.reset (build pdqS tieApps).nodelist ++ [node.mk 109 1 .nil .nil false []]


/-- C15, as the code has it.  `sort.Sort` returns the elements of the forest sorted
ascending by weight; its contract does not fix the order of elements of equal weight.
On a forest of at most 12 elements it is the insertion sort, which keeps elements of
equal weight in their previous order; with it, an element appended to the forest before
the sort, the new leaf in `Append` or the new node in `nextStep`, comes after all
elements of its weight.  In every case `nextStep` makes the first element of the forest
the left child and the second the right child. -/
theorem sort_order (S : SortImpl) (l : nodelist) (w : Int) (x a b : node) (rest : nodelist) :
    (Ascending (S.sort l) ∧ (S.sort l).Perm l) ∧
    pdqS.sort (l.take 12) = insertionSort (l.take 12) ∧
    ofWeight w (insertionSort l) = ofWeight w l ∧
    ofWeight x.weight (insertionSort (l ++ [x])) = ofWeight x.weight l ++ [x] ∧
    ∃ item ∈ (nodelist.nextStep S (a :: b :: rest)).1, item.left = a ∧ item.right = b := by
  refine ⟨⟨S.sorted l, S.perm l⟩, ?_, insertionSort_stable w l, ?_, ?_⟩
  · have h : (l.take 12).length ≤ 12 := by
      rw [List.length_take]
      exact Nat.min_le_left _ _
    show pdqSort (l.take 12) = insertionSort (l.take 12)
    unfold pdqSort
    rw [if_pos h]
  · rw [insertionSort_stable]
    simp [ofWeight]
  · refine ⟨node.mk 0 (wrapInt (a.weight + b.weight)) a b false [], ?_, rfl, rfl⟩
    exact (S.perm _).symm.subset (by simp)

set_option maxRecDepth 1000000 in
/-- C15 as stated fails.  After twelve `Append` calls with weight 2, `Append('m', 1)`
hands `sort.Sort` a forest of 13 elements: the leaves `g a j l f b d e k c h i` of
weight 2 and the new leaf `m` of weight 1.  The slice is longer than 12, so the sort
partitions it around the element at index 6, and the leaves of weight 2 come out in the
order `d j l f b g e k c h i a`: `g` and `a`, which were first, have been moved behind
others of their weight. -/
theorem sort_unstable_counterexample :
    tieForest.map node.char = [103, 97, 106, 108, 102, 98, 100, 101, 107, 99, 104, 105, 109] ∧
    tieForest.map node.weight = [2, 2, 2, 2, 2, 2, 2, 2, 2, 2, 2, 2, 1] ∧
    choosePivot tieForest = (6, 0) ∧ inOrder tieForest = false ∧
    (partition tieForest 0 13 6).1.map node.char
      = [109, 100, 106, 108, 102, 98, 103, 101, 107, 99, 104, 105, 97] ∧
    (partition tieForest 0 13 6).2 = 1 ∧
    insertionSort ((partition tieForest 0 13 6).1.take 1)
        ++ (partition tieForest 0 13 6).1.getD 1 .nil
          :: insertionSort ((partition tieForest 0 13 6).1.drop 2)
      = pdqS.sort tieForest ∧
    (pdqS.sort tieForest).map node.char
      = [109, 100, 106, 108, 102, 98, 103, 101, 107, 99, 104, 105, 97] ∧
    ofWeight 2 (pdqS.sort tieForest) ≠ ofWeight 2 tieForest := by
  decide

end Huffman
